import Mathlib

/-!
Verification development for the generic-beefy-light-client repository.

The development shallowly embeds:
* the SCALE wire codec used by `GrandpaJustification` decoding
  (src/grandpa/light-client/src/justification.rs);
* `verify_with_voter_set`, `decode_and_verify_finalizes` and the
  `AncestryChain::ancestry` walk from the same file, with the external
  `finality_grandpa::validate_commit` oracle and the ed25519 signature check
  modelled as function parameters (they live outside this repository);
* `verify_membership`, `verify_non_membership` and `verify_delay_passed`
  from src/light-clients/common/src/lib.rs, with `sp_trie::verify_trie_proof`
  modelled as a function parameter;
* the packet verification operations of
  src/light-clients/ics10-grandpa/src/client_def.rs.

Machine integers are modelled as `Nat`; bytes as `Fin 256`; the in-memory
`HashMap` of `AncestryChain` as an association list whose lookup keeps the
last binding (Rust `collect` overwrites earlier duplicates); the unbounded
`loop` of `AncestryChain::ancestry` as a fuel-indexed recursion where fuel
exhaustion is reported as a distinguished `diverged` outcome.
-/

set_option maxHeartbeats 1000000

abbrev Byte := Fin 256

/-- Little-endian value of a byte string. -/
def fromLE : List Byte → Nat
  | [] => 0
  | b :: t => b.val + 256 * fromLE t

/-- Little-endian byte string of width `k` for `n % 256 ^ k`. -/
def toLE : Nat → Nat → List Byte
  | 0, _ => []
  | k + 1, n => ⟨n % 256, by omega⟩ :: toLE k (n / 256)

/-- Read exactly `n` bytes from the front of the input. -/
def decodeTake (n : Nat) (bs : List Byte) : Option (List Byte × List Byte) :=
  if n ≤ bs.length then some (bs.take n, bs.drop n) else none

/-- SCALE little-endian u32 (4 bytes). -/
def decodeU32 (bs : List Byte) : Option (Nat × List Byte) :=
  (decodeTake 4 bs).map (fun p => (fromLE p.1, p.2))

def encodeU32 (n : Nat) : List Byte := toLE 4 n

/-- SCALE little-endian u64 (8 bytes). -/
def decodeU64 (bs : List Byte) : Option (Nat × List Byte) :=
  (decodeTake 8 bs).map (fun p => (fromLE p.1, p.2))

def encodeU64 (n : Nat) : List Byte := toLE 8 n

/--
SCALE compact-u32 decoding as implemented by parity-scale-codec
(`Compact<u32>` is the length prefix of every SCALE `Vec`).  The two-,
four- and big-integer modes reject non-minimal encodings (the decoded
value must exceed the previous mode's maximum), and the big-integer mode
for u32 accepts exactly four following bytes.
-/
def decodeCompactU32 : List Byte → Option (Nat × List Byte)
  | [] => none
  | b :: rest =>
    if b.val % 4 = 0 then some (b.val / 4, rest)
    else if b.val % 4 = 1 then
      match rest with
      | [] => none
      | b1 :: r1 =>
        if 64 ≤ (b.val + 256 * b1.val) / 4 then some ((b.val + 256 * b1.val) / 4, r1)
        else none
    else if b.val % 4 = 2 then
      match decodeTake 3 rest with
      | none => none
      | some (v, r) =>
        if 16384 ≤ fromLE (b :: v) / 4 then some (fromLE (b :: v) / 4, r) else none
    else
      if b.val / 4 = 0 then
        match decodeTake 4 rest with
        | none => none
        | some (v, r) => if 1073741824 ≤ fromLE v then some (fromLE v, r) else none
      else none

/-- SCALE compact-u32 encoding (minimal mode for the value). -/
def encodeCompactU32 (n : Nat) : List Byte :=
  if n < 64 then toLE 1 (4 * n)
  else if n < 16384 then toLE 2 (4 * n + 1)
  else if n < 1073741824 then toLE 4 (4 * n + 2)
  else ⟨3, by omega⟩ :: toLE 4 n

/-- Decode exactly `k` consecutive items with the item decoder `dec`. -/
def decodeSeq (dec : List Byte → Option (α × List Byte)) :
    Nat → List Byte → Option (List α × List Byte)
  | 0, bs => some ([], bs)
  | k + 1, bs =>
    match dec bs with
    | none => none
    | some (a, r) =>
      match decodeSeq dec k r with
      | none => none
      | some (l, r2) => some (a :: l, r2)

/-- SCALE `Vec<T>`: compact length prefix followed by the items. -/
def decodeVec (dec : List Byte → Option (α × List Byte)) (bs : List Byte) :
    Option (List α × List Byte) :=
  match decodeCompactU32 bs with
  | none => none
  | some (n, r) => decodeSeq dec n r

def encodeVec (enc : α → List Byte) (l : List α) : List Byte :=
  encodeCompactU32 l.length ++ (l.map enc).flatten

/-- SCALE `Vec<u8>`: compact length prefix followed by the raw bytes. -/
def decodeByteSeq (bs : List Byte) : Option (List Byte × List Byte) :=
  match decodeCompactU32 bs with
  | none => none
  | some (n, r) => decodeTake n r

def encodeByteSeq (l : List Byte) : List Byte := encodeCompactU32 l.length ++ l

/--
`finality_grandpa::Precommit`: the (target_hash, target_number) a voter claims
final.  Generic in the hash type, as `GrandpaJustification<Block>` is generic
in `Block::Hash`.
-/
structure Precommit (Hash : Type) where
  target_hash : Hash
  target_number : Nat
deriving DecidableEq

/-- `finality_grandpa::SignedPrecommit`: precommit, signature, voter id. -/
structure SignedPrecommit (Hash AuthId Sig : Type) where
  precommit : Precommit Hash
  signature : Sig
  id : AuthId
deriving DecidableEq

/-- `finality_grandpa::Commit`: claimed finalized target plus signed precommits. -/
structure Commit (Hash AuthId Sig : Type) where
  target_hash : Hash
  target_number : Nat
  precommits : List (SignedPrecommit Hash AuthId Sig)
deriving DecidableEq

/-- `GrandpaJustification<Block>` (justification.rs lines 44-49). -/
structure GrandpaJustification (Hash Header AuthId Sig : Type) where
  round : Nat
  commit : Commit Hash AuthId Sig
  votes_ancestries : List Header
deriving DecidableEq

/-- `GrandpaJustification::target` (justification.rs lines 183-185). -/
def GrandpaJustification.target {Hash Header AuthId Sig : Type}
    (j : GrandpaJustification Hash Header AuthId Sig) : Nat × Hash :=
  (j.commit.target_number, j.commit.target_hash)

/--
Wire form of a justification: `Block::Hash` is a 32-byte hash (H256),
`AuthoritySignature` an ed25519 signature (64 bytes), `AuthorityId` an
ed25519 public key (32 bytes), `NumberFor<Block>` a u32; the header type and
its codec stay parameters, as substrate's generic `Header` codec is outside
this repository.
-/
abbrev WireJustification (Header : Type) :=
  GrandpaJustification (List Byte) Header (List Byte) (List Byte)

def decodePrecommit (bs : List Byte) : Option (Precommit (List Byte) × List Byte) :=
  match decodeTake 32 bs with
  | none => none
  | some (h, r1) =>
    match decodeU32 r1 with
    | none => none
    | some (n, r2) => some ({ target_hash := h, target_number := n }, r2)

def encodePrecommit (p : Precommit (List Byte)) : List Byte :=
  p.target_hash ++ encodeU32 p.target_number

def decodeSignedPrecommit (bs : List Byte) :
    Option (SignedPrecommit (List Byte) (List Byte) (List Byte) × List Byte) :=
  match decodePrecommit bs with
  | none => none
  | some (p, r1) =>
    match decodeTake 64 r1 with
    | none => none
    | some (sg, r2) =>
      match decodeTake 32 r2 with
      | none => none
      | some (idb, r3) => some ({ precommit := p, signature := sg, id := idb }, r3)

def encodeSignedPrecommit (s : SignedPrecommit (List Byte) (List Byte) (List Byte)) :
    List Byte :=
  encodePrecommit s.precommit ++ s.signature ++ s.id

def decodeCommit (bs : List Byte) :
    Option (Commit (List Byte) (List Byte) (List Byte) × List Byte) :=
  match decodeTake 32 bs with
  | none => none
  | some (h, r1) =>
    match decodeU32 r1 with
    | none => none
    | some (n, r2) =>
      match decodeVec decodeSignedPrecommit r2 with
      | none => none
      | some (ps, r3) =>
        some ({ target_hash := h, target_number := n, precommits := ps }, r3)

def encodeCommit (c : Commit (List Byte) (List Byte) (List Byte)) : List Byte :=
  c.target_hash ++ encodeU32 c.target_number ++ encodeVec encodeSignedPrecommit c.precommits

/--
SCALE decoding of `GrandpaJustification` (derived `Decode`): round (u64),
commit, votes_ancestries (`Vec<Header>`), reading from the front of the
input and leaving the unconsumed remainder, exactly as
`Decode::decode(&mut &*encoded)` does.
-/
def decodeJustification {Header : Type}
    (decH : List Byte → Option (Header × List Byte)) (bs : List Byte) :
    Option (WireJustification Header × List Byte) :=
  match decodeU64 bs with
  | none => none
  | some (rd, r1) =>
    match decodeCommit r1 with
    | none => none
    | some (c, r2) =>
      match decodeVec decH r2 with
      | none => none
      | some (hs, r3) =>
        some ({ round := rd, commit := c, votes_ancestries := hs }, r3)

def encodeJustification {Header : Type} (encH : Header → List Byte)
    (j : WireJustification Header) : List Byte :=
  encodeU64 j.round ++ encodeCommit j.commit ++ encodeVec encH j.votes_ancestries

/--
External collaborators of `verify_with_voter_set`, kept as parameters of the
embedding: the header hash function (`HeaderT::hash`, a blake2 hash), the
parent-hash accessor (`HeaderT::parent_hash`), the vote-tallying oracle
(`finality_grandpa::validate_commit` together with `is_valid`, consuming the
commit and the ancestry chain) and the ed25519 signature check
(`sp_finality_grandpa::check_message_signature_with_buffer`, consuming
round, set_id, the precommit message, the voter id and the signature).
-/
structure ChainSpec (Hash Header AuthId Sig : Type) where
  hashOf : Header → Hash
  parentOf : Header → Hash
  oracle : Commit Hash AuthId Sig → List (Hash × Header) → Bool
  checkSig : Nat → Nat → Precommit Hash → AuthId → Sig → Bool

/-- `AncestryChain::new`: hash-indexed map of the supplied headers. -/
def chainOf {Hash Header AuthId Sig : Type} (cs : ChainSpec Hash Header AuthId Sig)
    (headers : List Header) : List (Hash × Header) :=
  headers.map (fun h => (cs.hashOf h, h))

/--
Lookup in the `HashMap` built by `collect`: a later entry with the same key
overwrites an earlier one, so the lookup returns the last matching binding.
-/
def chainLookup {Hash Header : Type} [DecidableEq Hash]
    (m : List (Hash × Header)) (h : Hash) : Option Header :=
  (m.reverse.find? (fun p => decide (p.1 = h))).map (fun p => p.2)

/--
`AncestryChain::ancestry` (justification.rs lines 211-233): walk parent
links from `block` down to `base`, collecting each parent pushed along the
way and finally popping the base.  The source's unbounded `loop` becomes a
fuel-indexed recursion: `none` means the fuel ran out (the source loops
forever), `some none` is the `Err(NotDescendent)` outcome, and
`some (some route)` is `Ok(route)`.
-/
def ancestryLoop {Hash Header AuthId Sig : Type} [DecidableEq Hash]
    (cs : ChainSpec Hash Header AuthId Sig) (m : List (Hash × Header)) (base : Hash) :
    Nat → Hash → List Hash → Option (Option (List Hash))
  | 0, _, _ => none
  | fuel + 1, cur, route =>
    if cur = base then some (some route.dropLast)
    else
      match chainLookup m cur with
      | none => some none
      | some hdr => ancestryLoop cs m base fuel (cs.parentOf hdr) (route ++ [cs.parentOf hdr])

/-- `AncestryChain::ancestry` run from an empty route accumulator. -/
def ancestry {Hash Header AuthId Sig : Type} [DecidableEq Hash]
    (cs : ChainSpec Hash Header AuthId Sig) (m : List (Hash × Header)) (base : Hash)
    (fuel : Nat) (block : Hash) : Option (Option (List Hash)) :=
  ancestryLoop cs m base fuel block []

/--
`min_by_key(target_number)` over the precommits of a commit
(justification.rs lines 115-127): returns the first precommit attaining the
minimal target_number (Rust's `min_by_key` keeps the first of equal minima),
or `none` for an empty list (where the source panics via `expect`).
-/
def minNumPrecommit {Hash AuthId Sig : Type} :
    List (SignedPrecommit Hash AuthId Sig) → Option (Precommit Hash)
  | [] => none
  | s :: rest =>
    some (rest.foldl
      (fun acc y => if y.precommit.target_number < acc.target_number then y.precommit else acc)
      s.precommit)

/--
Verification errors of justification.rs.  Every constructor mirrors one
distinct error value of the source: `decodeError` is
`Error::JustificationDecode`; the others are `Error::BadJustification(msg)`
with the fixed message strings "invalid commit target in grandpa
justification", "invalid commit in grandpa justification", "invalid
signature for precommit in grandpa justification", "invalid precommit
ancestry proof in grandpa justification" and "invalid precommit ancestries
in grandpa justification with unused headers" respectively.  No error
carries any further data.
-/
inductive JustError where
  | decodeError
  | targetMismatch
  | badCommit
  | badSignature
  | brokenAncestry
  | unusedHeaders
deriving DecidableEq

/--
Outcome of `verify_with_voter_set`: `ok`, a returned error, the `expect`
panic on an empty precommit list, or divergence of the unbounded ancestry
loop (fuel exhaustion in the embedding).
-/
inductive VerifyOutcome where
  | ok
  | err (e : JustError)
  | fatal
  | diverged
deriving DecidableEq

/--
The per-precommit loop of `verify_with_voter_set` (justification.rs lines
131-164): check each signature, skip the walk when the target is the base,
otherwise walk the ancestry and accumulate the visited hashes (the target
itself plus every hash on the returned route).
-/
def checkPrecommits {Hash Header AuthId Sig : Type} [DecidableEq Hash]
    (cs : ChainSpec Hash Header AuthId Sig) (m : List (Hash × Header))
    (round set_id : Nat) (base : Hash) (fuel : Nat) :
    List (SignedPrecommit Hash AuthId Sig) → Finset Hash →
    Option (Except JustError (Finset Hash))
  | [], visited => some (Except.ok visited)
  | s :: rest, visited =>
    if cs.checkSig round set_id s.precommit s.id s.signature = false then
      some (Except.error JustError.badSignature)
    else if base = s.precommit.target_hash then
      checkPrecommits cs m round set_id base fuel rest visited
    else
      match ancestry cs m base fuel s.precommit.target_hash with
      | none => none
      | some none => some (Except.error JustError.brokenAncestry)
      | some (some route) =>
        checkPrecommits cs m round set_id base fuel rest
          (route.foldl (fun v h => insert h v) (insert s.precommit.target_hash visited))

/--
The set of hashes visited while routing every precommit target back to the
base (spec section 4.1 step 5), written independently of the signature
checks: the union over all precommits not targeting the base of the target
hash plus its route hashes; `none` when some walk fails or diverges.
-/
def visitedOf {Hash Header AuthId Sig : Type} [DecidableEq Hash]
    (cs : ChainSpec Hash Header AuthId Sig) (m : List (Hash × Header))
    (base : Hash) (fuel : Nat) :
    List (SignedPrecommit Hash AuthId Sig) → Option (Finset Hash)
  | [] => some ∅
  | s :: rest =>
    if base = s.precommit.target_hash then visitedOf cs m base fuel rest
    else
      match ancestry cs m base fuel s.precommit.target_hash with
      | some (some route) =>
        (visitedOf cs m base fuel rest).map
          (fun v => insert s.precommit.target_hash route.toFinset ∪ v)
      | _ => none

/-- `verify_with_voter_set` (justification.rs lines 92-180). -/
def verifyWithVoterSet {Hash Header AuthId Sig : Type} [DecidableEq Hash]
    (cs : ChainSpec Hash Header AuthId Sig) (fuel set_id : Nat)
    (j : GrandpaJustification Hash Header AuthId Sig) : VerifyOutcome :=
  let m := chainOf cs j.votes_ancestries
  if cs.oracle j.commit m = false then VerifyOutcome.err JustError.badCommit
  else
    match minNumPrecommit j.commit.precommits with
    | none => VerifyOutcome.fatal
    | some basePre =>
      match checkPrecommits cs m j.round set_id basePre.target_hash fuel
          j.commit.precommits ∅ with
      | none => VerifyOutcome.diverged
      | some (Except.error e) => VerifyOutcome.err e
      | some (Except.ok visited) =>
        if visited = (j.votes_ancestries.map cs.hashOf).toFinset then VerifyOutcome.ok
        else VerifyOutcome.err JustError.unusedHeaders

/-- Outcome of `decode_and_verify_finalizes`, returning the justification. -/
inductive DecodeVerifyOutcome (α : Type) where
  | ok (j : α)
  | err (e : JustError)
  | fatal
  | diverged

/-- `decode_and_verify_finalizes` (justification.rs lines 54-78). -/
def decodeAndVerifyFinalizes {Header : Type} [DecidableEq Header]
    (decH : List Byte → Option (Header × List Byte))
    (cs : ChainSpec (List Byte) Header (List Byte) (List Byte))
    (fuel : Nat) (encoded : List Byte) (finalized_target : List Byte × Nat) (set_id : Nat) :
    DecodeVerifyOutcome (WireJustification Header) :=
  match decodeJustification decH encoded with
  | none => DecodeVerifyOutcome.err JustError.decodeError
  | some (j, _) =>
    if (j.commit.target_hash, j.commit.target_number) ≠ finalized_target then
      DecodeVerifyOutcome.err JustError.targetMismatch
    else
      match verifyWithVoterSet cs fuel set_id j with
      | VerifyOutcome.ok => DecodeVerifyOutcome.ok j
      | VerifyOutcome.err e => DecodeVerifyOutcome.err e
      | VerifyOutcome.fatal => DecodeVerifyOutcome.fatal
      | VerifyOutcome.diverged => DecodeVerifyOutcome.diverged

/--
Result of `sp_trie::verify_trie_proof` as consumed by
light-clients/common/src/lib.rs: the code distinguishes only `Ok`,
`Err(VerifyError::RootMismatch(actual))` (carrying the recovered root) and
every other error, which `otherErr` stands for.
-/
inductive TrieVerifyError where
  | rootMismatch (actual : List Byte)
  | otherErr
deriving DecidableEq

/--
Type of the external `sp_trie::verify_trie_proof::<LayoutV0<H>, _, _, _>`
function: expected root, proof nodes, items (key, optional value).  It lives
outside this repository, so the embedding takes it as a parameter.
-/
abbrev TrieVerifier :=
  List Byte → List (List Byte) → List (List Byte × Option (List Byte)) →
  Except TrieVerifyError Unit

/-- `IbcProof` (common/src/lib.rs lines 57-61), fields in declaration order. -/
structure IbcProof where
  child_trie_proof : List (List Byte)
  child_trie_root_proof : List (List Byte)
deriving DecidableEq

/-- SCALE decoding of `IbcProof` (derived `Decode`, field order). -/
def decodeIbcProof (bs : List Byte) : Option (IbcProof × List Byte) :=
  match decodeVec decodeByteSeq bs with
  | none => none
  | some (ctp, r1) =>
    match decodeVec decodeByteSeq r1 with
    | none => none
    | some (ctrp, r2) =>
      some ({ child_trie_proof := ctp, child_trie_root_proof := ctrp }, r2)

/--
`ChildInfo::new_default(prefix).prefixed_storage_key()`: the bytes of
":child_storage:default:" followed by the prefix bytes.
-/
def childStorageKeyPfx : List Byte :=
  [58, 99, 104, 105, 108, 100, 95, 115, 116, 111, 114, 97, 103, 101, 58,
   100, 101, 102, 97, 117, 108, 116, 58]

/--
Errors of light-clients/common/src/lib.rs and of the ics10-grandpa client
operations.  Each constructor mirrors one distinct `anyhow!` message of the
source: "invalid commitment root length", "Failed to decode proof nodes",
"Unexpected child trie root", "Child root extraction failed", "verification
failed", "child trie root verification failed", "child trie verification
failed", the `client_update_time`/`client_update_height` lookup failures,
"Timestamp overflowed!", "Not enough time elapsed", "Not enough blocks
elapsed", and the ics10 height check failure (`Expired`).
-/
inductive CommonError where
  | invalidRootLength
  | proofDecodeFailed
  | unexpectedChildTrieRoot
  | childRootExtractionFailed
  | verificationFailed
  | childRootVerificationFailed
  | childTrieVerificationFailed
  | updateTimeUnavailable
  | updateHeightUnavailable
  | timestampOverflow
  | timeDelayNotElapsed
  | blockDelayNotElapsed
  | expired
deriving DecidableEq

/--
`verify_membership` (common/src/lib.rs lines 64-116), with the path already
canonicalized to its byte string (`path.to_string().as_bytes()`) and the
trie verifier as a parameter.  The child-root step treats a literal success
of the direct check as the error "Unexpected child trie root", recovers the
child trie root from the `RootMismatch` error, and then proves
`(key, Some(value))` under the recovered child trie root.
-/
def verify_membership (vtp : TrieVerifier)
    (pfx proof root path value : List Byte) : Except CommonError Unit :=
  if root.length ≠ 32 then Except.error CommonError.invalidRootLength
  else
    let key := pfx ++ path
    match decodeIbcProof proof with
    | none => Except.error CommonError.proofDecodeFailed
    | some (ibcProof, _) =>
      let trie_key := childStorageKeyPfx ++ pfx
      match vtp root ibcProof.child_trie_root_proof [(trie_key, some value)] with
      | Except.ok _ => Except.error CommonError.unexpectedChildTrieRoot
      | Except.error (TrieVerifyError.rootMismatch child_trie_root) =>
        match vtp child_trie_root ibcProof.child_trie_proof [(key, some value)] with
        | Except.ok _ => Except.ok ()
        | Except.error _ => Except.error CommonError.verificationFailed
      | Except.error TrieVerifyError.otherErr =>
        Except.error CommonError.childRootExtractionFailed

/--
`verify_non_membership` (common/src/lib.rs lines 119-162): both the child
root key and the full key are proven absent directly under the main root
(no child-root indirection).
-/
def verify_non_membership (vtp : TrieVerifier)
    (pfx proof root path : List Byte) : Except CommonError Unit :=
  if root.length ≠ 32 then Except.error CommonError.invalidRootLength
  else
    let key := pfx ++ path
    match decodeIbcProof proof with
    | none => Except.error CommonError.proofDecodeFailed
    | some (ibcProof, _) =>
      let trie_key := childStorageKeyPfx ++ pfx
      match vtp root ibcProof.child_trie_root_proof [(trie_key, none)],
          vtp root ibcProof.child_trie_proof [(key, none)] with
      | Except.ok _, Except.ok _ => Except.ok ()
      | Except.error _, _ => Except.error CommonError.childRootVerificationFailed
      | _, Except.error _ => Except.error CommonError.childTrieVerificationFailed

/-- Apply trie-proof items to a partial key-value map (last write wins). -/
def applyItems (m : List (List Byte × List Byte)) :
    List (List Byte × Option (List Byte)) → List (List Byte × List Byte)
  | [] => m
  | (k, ov) :: rest =>
    applyItems
      ((m.filter (fun p => decide (p.1 ≠ k))) ++
        (match ov with
         | some v => [(k, v)]
         | none => []))
      rest

/--
Modelled from the spec: idealized semantics of the external
`sp_trie::verify_trie_proof` (the function itself is not part of this
repository).  The proof nodes determine a description of a partial
key-value map (`decodeNodes`), represented as an association list whose
entry order carries no meaning; overriding it with the claimed items and
applying the root assignment `rootOf` yields the reconstructed root, which
is compared against the expected one — equality is `Ok`, a different
reconstructed root is `Err(RootMismatch(actual))`, and undecodable proof
nodes are any other error.  Collision-freeness of `rootOf` — equal roots
only for descriptions of the same map, i.e. agreeing up to reordering — is
a hypothesis of the theorems below, not part of this definition, so
distinct orderings of one map may share a root and the membership success
path (recovering the child root from the expected mismatch) is satisfiable.
-/
def idealTrieVerifier (rootOf : List (List Byte × List Byte) → List Byte)
    (decodeNodes : List (List Byte) → Option (List (List Byte × List Byte))) :
    TrieVerifier :=
  fun root proof items =>
    match decodeNodes proof with
    | none => Except.error TrieVerifyError.otherErr
    | some m =>
      let actual := rootOf (applyItems m items)
      if actual = root then Except.ok ()
      else Except.error (TrieVerifyError.rootMismatch actual)

/-- `ibc::Height`: (revision_number, revision_height). -/
structure Height where
  revision_number : Nat
  revision_height : Nat
deriving DecidableEq

/-- Lexicographic order on `ibc::Height` (revision number, then height). -/
def Height.lt (a b : Height) : Prop :=
  a.revision_number < b.revision_number ∨
    (a.revision_number = b.revision_number ∧ a.revision_height < b.revision_height)

instance (a b : Height) : Decidable (Height.lt a b) := by
  unfold Height.lt
  infer_instance

/-- `ibc::Height::add`: adds to revision_height, keeping revision_number. -/
def Height.add (a : Height) (n : Nat) : Height :=
  { revision_number := a.revision_number, revision_height := a.revision_height + n }

/--
The `ReaderContext` operations consumed by `verify_delay_passed`
(host_timestamp, host_height, client_update_time, client_update_height,
block_delay); timestamps are u64 nanoseconds modelled as `Nat`, client ids
as `Nat`; the two lookups are fallible in the source (`map_err`), hence
`Option`.
-/
structure ReaderCtx where
  host_timestamp : Nat
  host_height : Height
  client_update_time : Nat → Height → Option Nat
  client_update_height : Nat → Height → Option Height
  block_delay : Nat → Nat

/--
`ibc::ConnectionEnd` as consumed here: its client id, the counterparty's
commitment prefix bytes (`counterparty().prefix()`), and the configured
delay period.
-/
structure ConnectionEnd where
  client_id : Nat
  counterparty_commitment_pfx : List Byte
  delay_period : Nat

/--
`verify_delay_passed` (common/src/lib.rs lines 248-282): look up the time
and height at which the client processed `height`, add the connection's
delay period (time addition is checked u64 addition), and require the
current host time to equal-or-exceed the earliest time and the current host
height to reach the earliest height.
-/
def verify_delay_passed (ctx : ReaderCtx) (height : Height)
    (connection_end : ConnectionEnd) : Except CommonError Unit :=
  let current_time := ctx.host_timestamp
  let current_height := ctx.host_height
  match ctx.client_update_time connection_end.client_id height with
  | none => Except.error CommonError.updateTimeUnavailable
  | some processed_time =>
    match ctx.client_update_height connection_end.client_id height with
    | none => Except.error CommonError.updateHeightUnavailable
    | some processed_height =>
      let delay_period_time := connection_end.delay_period
      let delay_period_blocks := ctx.block_delay delay_period_time
      if 18446744073709551616 ≤ processed_time + delay_period_time then
        Except.error CommonError.timestampOverflow
      else
        let earliest_time := processed_time + delay_period_time
        if ¬ (current_time = earliest_time ∨ earliest_time < current_time) then
          Except.error CommonError.timeDelayNotElapsed
        else
          let earliest_height := processed_height.add delay_period_blocks
          if Height.lt current_height earliest_height then
            Except.error CommonError.blockDelayNotElapsed
          else Except.ok ()

/--
Modelled from the spec: the grandpa `ClientState` and its `verify_height`
(the concrete `ClientState` type is stubbed to `()` in the provided
client_def.rs; per spec section 4.4 every operation first checks that
`height` is not beyond the client's verified height, failing with
`Expired`).
-/
structure GrandpaClientState where
  latest_height : Height

/-- Modelled from the spec: `ClientState::verify_height` — `Expired` when
`height` is beyond the client's latest verified height. -/
def ClientState.verify_height (cstate : GrandpaClientState) (height : Height) :
    Except CommonError Unit :=
  if Height.lt cstate.latest_height height then Except.error CommonError.expired
  else Except.ok ()

/--
The typed storage paths built by the packet operations of client_def.rs
(`CommitmentsPath`, `AcksPath`, `SeqRecvsPath`, `ReceiptsPath`); their
canonical string rendering is the ibc crate's `Display`, kept as the
`render` parameter below.
-/
inductive IbcPath where
  | commitments (port channel : List Byte) (sequence : Nat)
  | acks (port channel : List Byte) (sequence : Nat)
  | seqRecvs (port channel : List Byte)
  | receipts (port channel : List Byte) (sequence : Nat)
deriving DecidableEq

/-- `verify_packet_data` (client_def.rs lines 171-200): height check, then
delay check, then membership proof under the counterparty's prefix. -/
def verify_packet_data (render : IbcPath → List Byte) (vtp : TrieVerifier)
    (cstate : GrandpaClientState) (ctx : ReaderCtx) (height : Height)
    (connection_end : ConnectionEnd) (proof root : List Byte)
    (port channel : List Byte) (sequence : Nat) (commitment : List Byte) :
    Except CommonError Unit :=
  match ClientState.verify_height cstate height with
  | Except.error e => Except.error e
  | Except.ok _ =>
    match verify_delay_passed ctx height connection_end with
    | Except.error e => Except.error e
    | Except.ok _ =>
      verify_membership vtp connection_end.counterparty_commitment_pfx proof root
        (render (IbcPath.commitments port channel sequence)) commitment

/-- `verify_packet_acknowledgement` (client_def.rs lines 202-229). -/
def verify_packet_acknowledgement (render : IbcPath → List Byte) (vtp : TrieVerifier)
    (cstate : GrandpaClientState) (ctx : ReaderCtx) (height : Height)
    (connection_end : ConnectionEnd) (proof root : List Byte)
    (port channel : List Byte) (sequence : Nat) (ack : List Byte) :
    Except CommonError Unit :=
  match ClientState.verify_height cstate height with
  | Except.error e => Except.error e
  | Except.ok _ =>
    match verify_delay_passed ctx height connection_end with
    | Except.error e => Except.error e
    | Except.ok _ =>
      verify_membership vtp connection_end.counterparty_commitment_pfx proof root
        (render (IbcPath.acks port channel sequence)) ack

/-- `verify_next_sequence_recv` (client_def.rs lines 231-259): the expected
value is the SCALE encoding of the u64 sequence
(`codec::Encode::encode(&u64::from(sequence))`). -/
def verify_next_sequence_recv (render : IbcPath → List Byte) (vtp : TrieVerifier)
    (cstate : GrandpaClientState) (ctx : ReaderCtx) (height : Height)
    (connection_end : ConnectionEnd) (proof root : List Byte)
    (port channel : List Byte) (sequence : Nat) :
    Except CommonError Unit :=
  match ClientState.verify_height cstate height with
  | Except.error e => Except.error e
  | Except.ok _ =>
    match verify_delay_passed ctx height connection_end with
    | Except.error e => Except.error e
    | Except.ok _ =>
      verify_membership vtp connection_end.counterparty_commitment_pfx proof root
        (render (IbcPath.seqRecvs port channel)) (encodeU64 sequence)

/-- `verify_packet_receipt_absence` (client_def.rs lines 261-287): as the
others but with `verify_non_membership`. -/
def verify_packet_receipt_absence (render : IbcPath → List Byte) (vtp : TrieVerifier)
    (cstate : GrandpaClientState) (ctx : ReaderCtx) (height : Height)
    (connection_end : ConnectionEnd) (proof root : List Byte)
    (port channel : List Byte) (sequence : Nat) :
    Except CommonError Unit :=
  match ClientState.verify_height cstate height with
  | Except.error e => Except.error e
  | Except.ok _ =>
    match verify_delay_passed ctx height connection_end with
    | Except.error e => Except.error e
    | Except.ok _ =>
      verify_non_membership vtp connection_end.counterparty_commitment_pfx proof root
        (render (IbcPath.receipts port channel sequence))

/-- A minimal concrete header for instantiating the generic model: its own
hash and its parent hash. -/
structure SimpleHeader where
  hh : Nat
  ph : Nat
deriving DecidableEq

/-- Concrete chain parameters over `Nat` hashes: oracle and signature check
always accept. -/
def simpleChainSpec : ChainSpec Nat SimpleHeader Nat Nat :=
  { hashOf := fun h => h.hh
    parentOf := fun h => h.ph
    oracle := fun _ _ => true
    checkSig := fun _ _ _ _ _ => true }

/-- Concrete chain parameters whose signature check rejects exactly the
signature value 0 (any voter whose signature is 0 is "altered"). -/
def sigValueChainSpec : ChainSpec Nat SimpleHeader Nat Nat :=
  { hashOf := fun h => h.hh
    parentOf := fun h => h.ph
    oracle := fun _ _ => true
    checkSig := fun _ _ _ _ sg => decide (sg ≠ 0) }

/-- Trivial one-byte wire header codec for instantiating the generic
justification codec. -/
def decodeHeaderByte (bs : List Byte) : Option (List Byte × List Byte) :=
  decodeTake 1 bs

def encodeHeaderByte (h : List Byte) : List Byte := h

/-- Trivial chain parameters at the wire types (headers are byte lists). -/
def wireChainSpecTrivial : ChainSpec (List Byte) (List Byte) (List Byte) (List Byte) :=
  { hashOf := fun h => h
    parentOf := fun _ => []
    oracle := fun _ _ => true
    checkSig := fun _ _ _ _ _ => true }

/-- The justification decoded from 46 zero bytes: round 0, zero target hash
and number, no precommits, no ancestry headers. -/
def wireJustificationZero : WireJustification (List Byte) :=
  { round := 0
    commit := { target_hash := List.replicate 32 0, target_number := 0, precommits := [] }
    votes_ancestries := [] }

/-- One ordering of the concrete two-entry map sending both the leaf key
[1, 2] and the child storage key of prefix [1] to the value [5]. -/
def scenarioMapA : List (List Byte × List Byte) :=
  [([1, 2], [5]), (childStorageKeyPfx ++ [1], [5])]

/-- The other ordering of the same two-entry map. -/
def scenarioMapB : List (List Byte × List Byte) :=
  [(childStorageKeyPfx ++ [1], [5]), ([1, 2], [5])]

/-- A concrete root assignment, collision-free up to reordering: both
orderings of the scenario map get the root [2]; any other description gets
a tagged unary encoding of itself, so equal roots imply equal maps. -/
def rootOfW (m : List (List Byte × List Byte)) : List Byte :=
  if m = scenarioMapA ∨ m = scenarioMapB then [2]
  else 1 :: List.replicate (Encodable.encode m) 0

/-- A concrete proof-node decoder: the node list [[10]] describes the map
holding only the leaf key, [[20]] the map holding only the child storage
key, anything else fails to decode. -/
def decodeNodesW (ns : List (List Byte)) : Option (List (List Byte × List Byte)) :=
  if ns = [[10]] then some [([1, 2], [5])]
  else if ns = [[20]] then some [(childStorageKeyPfx ++ [1], [5])]
  else none

/-- A concrete trie verifier that reports a root mismatch (recovering the
root [7]) under the all-zero root and accepts under any other root. -/
def vtpMismatch : TrieVerifier :=
  fun root _ _ =>
    if root = List.replicate 32 0 then
      Except.error (TrieVerifyError.rootMismatch [7])
    else Except.ok ()

/-- A concrete reader context: host time 10, host height (0,10), all
updates processed at time 0 and height (0,0), block delay 1. -/
def ctxW : ReaderCtx :=
  { host_timestamp := 10
    host_height := { revision_number := 0, revision_height := 10 }
    client_update_time := fun _ _ => some 0
    client_update_height := fun _ _ => some { revision_number := 0, revision_height := 0 }
    block_delay := fun _ => 1 }

/-- A concrete connection end with delay period 5. -/
def connW : ConnectionEnd :=
  { client_id := 0
    counterparty_commitment_pfx := [1]
    delay_period := 5 }

instance exceptDecEq {e a : Type} [DecidableEq e] [DecidableEq a] :
    DecidableEq (Except e a) := fun x y =>
  match x, y with
  | Except.ok v, Except.ok w =>
    if h : v = w then isTrue (by rw [h]) else isFalse (by intro hc; injection hc; exact h (by assumption))
  | Except.ok _, Except.error _ => isFalse (by intro hc; exact Except.noConfusion hc)
  | Except.error _, Except.ok _ => isFalse (by intro hc; exact Except.noConfusion hc)
  | Except.error v, Except.error w =>
    if h : v = w then isTrue (by rw [h]) else isFalse (by intro hc; injection hc; exact h (by assumption))

/-- A concrete path renderer for witnesses. -/
def renderW : IbcPath → List Byte := fun _ => [2]

/-- A concrete client state for witnesses: latest verified height (0,5). -/
def cstateW : GrandpaClientState :=
  { latest_height := { revision_number := 0, revision_height := 5 } }

theorem toLE_length : ∀ k n, (toLE k n).length = k := by
  intro k
  induction k with
  | zero => intro n; rfl
  | succ k ih => intro n; simp [toLE, ih]

theorem fromLE_lt : ∀ v : List Byte, fromLE v < 256 ^ v.length := by
  intro v
  induction v with
  | nil => simp [fromLE]
  | cons b t ih =>
    have hb := b.isLt
    simp only [fromLE, List.length_cons, pow_succ]
    omega

theorem toLE_fromLE : ∀ v : List Byte, toLE v.length (fromLE v) = v := by
  intro v
  induction v with
  | nil => rfl
  | cons b t ih =>
    have hb := b.isLt
    simp only [List.length_cons, toLE, fromLE, List.cons.injEq]
    constructor
    · apply Fin.ext
      show (b.val + 256 * fromLE t) % 256 = b.val
      omega
    · have : (b.val + 256 * fromLE t) / 256 = fromLE t := by omega
      rw [this, ih]

theorem decodeTake_spec (n : Nat) (bs v rest : List Byte)
    (h : decodeTake n bs = some (v, rest)) : v ++ rest = bs ∧ v.length = n := by
  unfold decodeTake at h
  split at h
  · next hle =>
    injection h with h
    injection h with h1 h2
    subst h1; subst h2
    exact ⟨List.take_append_drop n bs, by simp [List.length_take]; omega⟩
  · exact absurd h (by simp)

theorem decodeTake_mono (n : Nat) (bs v rest ext : List Byte)
    (h : decodeTake n bs = some (v, rest)) :
    decodeTake n (bs ++ ext) = some (v, rest ++ ext) := by
  unfold decodeTake at h ⊢
  split at h
  · next hle =>
    injection h with h
    injection h with h1 h2
    subst h1; subst h2
    rw [if_pos (by simp; omega)]
    rw [List.take_append_of_le_length hle, List.drop_append_of_le_length hle]
  · exact absurd h (by simp)

theorem decodeU32_spec (bs : List Byte) (n : Nat) (rest : List Byte)
    (h : decodeU32 bs = some (n, rest)) : encodeU32 n ++ rest = bs ∧ n < 4294967296 := by
  unfold decodeU32 at h
  cases htake : decodeTake 4 bs with
  | none => rw [htake] at h; exact absurd h (by simp)
  | some p =>
    rw [htake] at h
    obtain ⟨v, r⟩ := p
    simp only [Option.map_some'] at h
    injection h with h
    injection h with h1 h2
    obtain ⟨happ, hlen⟩ := decodeTake_spec 4 bs v r htake
    subst h1; subst h2
    constructor
    · show toLE 4 (fromLE v) ++ r = bs
      rw [← hlen, toLE_fromLE]
      exact happ
    · have := fromLE_lt v
      rw [hlen] at this
      exact this

theorem decodeU32_mono (bs rest ext : List Byte) (n : Nat)
    (h : decodeU32 bs = some (n, rest)) :
    decodeU32 (bs ++ ext) = some (n, rest ++ ext) := by
  unfold decodeU32 at h ⊢
  cases htake : decodeTake 4 bs with
  | none => rw [htake] at h; exact absurd h (by simp)
  | some p =>
    rw [htake] at h
    obtain ⟨v, r⟩ := p
    rw [decodeTake_mono 4 bs v r ext htake]
    simp only [Option.map_some'] at h ⊢
    injection h with h
    injection h with h1 h2
    subst h1; subst h2
    rfl

theorem decodeU64_spec (bs : List Byte) (n : Nat) (rest : List Byte)
    (h : decodeU64 bs = some (n, rest)) :
    encodeU64 n ++ rest = bs ∧ n < 18446744073709551616 := by
  unfold decodeU64 at h
  cases htake : decodeTake 8 bs with
  | none => rw [htake] at h; exact absurd h (by simp)
  | some p =>
    rw [htake] at h
    obtain ⟨v, r⟩ := p
    simp only [Option.map_some'] at h
    injection h with h
    injection h with h1 h2
    obtain ⟨happ, hlen⟩ := decodeTake_spec 8 bs v r htake
    subst h1; subst h2
    constructor
    · show toLE 8 (fromLE v) ++ r = bs
      rw [← hlen, toLE_fromLE]
      exact happ
    · have := fromLE_lt v
      rw [hlen] at this
      exact this

theorem decodeU64_mono (bs rest ext : List Byte) (n : Nat)
    (h : decodeU64 bs = some (n, rest)) :
    decodeU64 (bs ++ ext) = some (n, rest ++ ext) := by
  unfold decodeU64 at h ⊢
  cases htake : decodeTake 8 bs with
  | none => rw [htake] at h; exact absurd h (by simp)
  | some p =>
    rw [htake] at h
    obtain ⟨v, r⟩ := p
    rw [decodeTake_mono 8 bs v r ext htake]
    simp only [Option.map_some'] at h ⊢
    injection h with h
    injection h with h1 h2
    subst h1; subst h2
    rfl

theorem decodeCompactU32_spec (bs : List Byte) (n : Nat) (rest : List Byte)
    (h : decodeCompactU32 bs = some (n, rest)) :
    encodeCompactU32 n ++ rest = bs ∧ n < 4294967296 := by
  match bs with
  | [] => exact absurd h (by simp [decodeCompactU32])
  | b :: tl =>
    have hb := b.isLt
    simp only [decodeCompactU32] at h
    split at h
    · next h0 =>
      rw [Option.some.injEq, Prod.mk.injEq] at h
      obtain ⟨hv, hr⟩ := h
      subst hr
      refine ⟨?_, by omega⟩
      simp only [encodeCompactU32]
      rw [if_pos (show n < 64 by omega)]
      simp only [toLE, List.cons_append, List.nil_append, List.cons.injEq]
      exact ⟨Fin.ext (show 4 * n % 256 = b.val by omega), trivial⟩
    · next h0 =>
      split at h
      · next h1 =>
        split at h
        · exact absurd h (by simp)
        · next x b1 r1 =>
          have hb1 := b1.isLt
          split at h
          · next hge =>
            rw [Option.some.injEq, Prod.mk.injEq] at h
            obtain ⟨hv, hr⟩ := h
            subst hr
            refine ⟨?_, by omega⟩
            simp only [encodeCompactU32]
            rw [if_neg (show ¬ n < 64 by omega), if_pos (show n < 16384 by omega)]
            have hval : 4 * n + 1 = fromLE [b, b1] := by
              simp only [fromLE]
              omega
            rw [hval]
            have hc : toLE ([b, b1] : List Byte).length (fromLE [b, b1]) = [b, b1] :=
              toLE_fromLE [b, b1]
            simp only [List.length_cons, List.length_nil] at hc
            rw [show (2 : Nat) = 0 + 1 + 1 by rfl, hc]
            rfl
          · exact absurd h (by simp)
      · next h1 =>
        split at h
        · next h2 =>
          split at h
          · exact absurd h (by simp)
          · rename_i v r heq
            obtain ⟨happ, hlen⟩ := decodeTake_spec 3 tl v r heq
            split at h
            · next hge =>
              rw [Option.some.injEq, Prod.mk.injEq] at h
              obtain ⟨hv, hr⟩ := h
              subst hr
              have hlt : fromLE (b :: v) < 4294967296 := by
                have := fromLE_lt (b :: v)
                rw [List.length_cons, hlen] at this
                exact this
              refine ⟨?_, by omega⟩
              simp only [encodeCompactU32]
              rw [if_neg (show ¬ n < 64 by omega), if_neg (show ¬ n < 16384 by omega),
                if_pos (show n < 1073741824 by omega)]
              have hval : 4 * n + 2 = fromLE (b :: v) := by
                have hmod : fromLE (b :: v) % 4 = 2 := by
                  simp only [fromLE]; omega
                omega
              rw [hval]
              have hc : toLE (b :: v).length (fromLE (b :: v)) = b :: v := toLE_fromLE _
              rw [List.length_cons, hlen] at hc
              rw [show (4 : Nat) = 3 + 1 by rfl, hc, ← happ]
              rfl
            · exact absurd h (by simp)
        · next h2 =>
          split at h
          · next hbig =>
            split at h
            · exact absurd h (by simp)
            · rename_i v r heq
              obtain ⟨happ, hlen⟩ := decodeTake_spec 4 tl v r heq
              split at h
              · next hge =>
                rw [Option.some.injEq, Prod.mk.injEq] at h
                obtain ⟨hv, hr⟩ := h
                subst hr
                have hlt : fromLE v < 4294967296 := by
                  have := fromLE_lt v
                  rw [hlen] at this
                  exact this
                refine ⟨?_, by omega⟩
                simp only [encodeCompactU32]
                rw [if_neg (show ¬ n < 64 by omega), if_neg (show ¬ n < 16384 by omega),
                  if_neg (show ¬ n < 1073741824 by omega)]
                have hc : toLE v.length (fromLE v) = v := toLE_fromLE v
                rw [hlen] at hc
                rw [show n = fromLE v by omega, hc, ← happ]
                have hb3 : (⟨3, by omega⟩ : Byte) = b := Fin.ext (show 3 = b.val by omega)
                rw [hb3]
                simp only [List.cons_append]
              · exact absurd h (by simp)
          · exact absurd h (by simp)

theorem decodeCompactU32_mono (bs rest ext : List Byte) (n : Nat)
    (h : decodeCompactU32 bs = some (n, rest)) :
    decodeCompactU32 (bs ++ ext) = some (n, rest ++ ext) := by
  match bs with
  | [] => exact absurd h (by simp [decodeCompactU32])
  | b :: tl =>
    simp only [List.cons_append, decodeCompactU32] at h ⊢
    split at h
    · next h0 =>
      rw [if_pos h0]
      rw [Option.some.injEq, Prod.mk.injEq] at h
      obtain ⟨hv, hr⟩ := h
      subst hr
      rw [hv]
    · next h0 =>
      rw [if_neg h0]
      split at h
      · next h1 =>
        rw [if_pos h1]
        split at h
        · exact absurd h (by simp)
        · next x b1 r1 =>
          simp only [List.cons_append]
          split at h
          · next hge =>
            rw [if_pos hge]
            rw [Option.some.injEq, Prod.mk.injEq] at h
            obtain ⟨hv, hr⟩ := h
            subst hr
            rw [hv]
          · exact absurd h (by simp)
      · next h1 =>
        rw [if_neg h1]
        split at h
        · next h2 =>
          rw [if_pos h2]
          split at h
          · exact absurd h (by simp)
          · rename_i v r heq
            simp only [decodeTake_mono 3 tl v r ext heq]
            split at h
            · next hge =>
              rw [if_pos hge]
              rw [Option.some.injEq, Prod.mk.injEq] at h
              obtain ⟨hv, hr⟩ := h
              subst hr
              rw [hv]
            · exact absurd h (by simp)
        · next h2 =>
          rw [if_neg h2]
          split at h
          · next hbig =>
            rw [if_pos hbig]
            split at h
            · exact absurd h (by simp)
            · rename_i v r heq
              simp only [decodeTake_mono 4 tl v r ext heq]
              split at h
              · next hge =>
                rw [if_pos hge]
                rw [Option.some.injEq, Prod.mk.injEq] at h
                obtain ⟨hv, hr⟩ := h
                subst hr
                rw [hv]
              · exact absurd h (by simp)
          · next hbig =>
            exact absurd h (by simp [if_neg hbig])

theorem decodeSeq_spec (dec : List Byte → Option (α × List Byte)) (enc : α → List Byte)
    (hdec : ∀ bs a rest, dec bs = some (a, rest) → enc a ++ rest = bs) :
    ∀ k bs l rest, decodeSeq dec k bs = some (l, rest) →
      (l.map enc).flatten ++ rest = bs ∧ l.length = k := by
  intro k
  induction k with
  | zero =>
    intro bs l rest h
    simp only [decodeSeq] at h
    rw [Option.some.injEq, Prod.mk.injEq] at h
    obtain ⟨hl, hr⟩ := h
    subst hl; subst hr
    exact ⟨rfl, rfl⟩
  | succ k ih =>
    intro bs l rest h
    simp only [decodeSeq] at h
    cases hd : dec bs with
    | none => simp [hd] at h
    | some p =>
      obtain ⟨a, r⟩ := p
      simp only [hd] at h
      cases hs : decodeSeq dec k r with
      | none => simp [hs] at h
      | some q =>
        obtain ⟨l2, r2⟩ := q
        simp only [hs] at h
        rw [Option.some.injEq, Prod.mk.injEq] at h
        obtain ⟨hl, hr⟩ := h
        subst hl; subst hr
        obtain ⟨happ2, hlen2⟩ := ih r l2 r2 hs
        have happ1 := hdec bs a r hd
        constructor
        · simp only [List.map_cons, List.flatten_cons, List.append_assoc]
          rw [happ2, happ1]
        · simp [hlen2]

theorem decodeSeq_mono (dec : List Byte → Option (α × List Byte))
    (hdec : ∀ bs a rest ext, dec bs = some (a, rest) → dec (bs ++ ext) = some (a, rest ++ ext)) :
    ∀ k bs l rest ext, decodeSeq dec k bs = some (l, rest) →
      decodeSeq dec k (bs ++ ext) = some (l, rest ++ ext) := by
  intro k
  induction k with
  | zero =>
    intro bs l rest ext h
    simp only [decodeSeq] at h ⊢
    rw [Option.some.injEq, Prod.mk.injEq] at h
    obtain ⟨hl, hr⟩ := h
    subst hl; subst hr
    rfl
  | succ k ih =>
    intro bs l rest ext h
    simp only [decodeSeq] at h ⊢
    cases hd : dec bs with
    | none => simp [hd] at h
    | some p =>
      obtain ⟨a, r⟩ := p
      simp only [hd] at h
      simp only [hdec bs a r ext hd]
      cases hs : decodeSeq dec k r with
      | none => simp [hs] at h
      | some q =>
        obtain ⟨l2, r2⟩ := q
        simp only [hs] at h
        rw [Option.some.injEq, Prod.mk.injEq] at h
        obtain ⟨hl, hr⟩ := h
        subst hl; subst hr
        simp only [ih r l2 r2 ext hs]

theorem decodeVec_spec (dec : List Byte → Option (α × List Byte)) (enc : α → List Byte)
    (hdec : ∀ bs a rest, dec bs = some (a, rest) → enc a ++ rest = bs)
    (bs : List Byte) (l : List α) (rest : List Byte)
    (h : decodeVec dec bs = some (l, rest)) : encodeVec enc l ++ rest = bs := by
  simp only [decodeVec] at h
  cases hc : decodeCompactU32 bs with
  | none => rw [hc] at h; exact absurd h (by simp)
  | some p =>
    rw [hc] at h
    obtain ⟨n, r⟩ := p
    obtain ⟨happ, hlen⟩ := decodeSeq_spec dec enc hdec n r l rest h
    obtain ⟨hcapp, _⟩ := decodeCompactU32_spec bs n r hc
    simp only [encodeVec, hlen, List.append_assoc]
    rw [happ, hcapp]

theorem decodeVec_mono (dec : List Byte → Option (α × List Byte))
    (hdec : ∀ bs a rest ext, dec bs = some (a, rest) → dec (bs ++ ext) = some (a, rest ++ ext))
    (bs : List Byte) (l : List α) (rest ext : List Byte)
    (h : decodeVec dec bs = some (l, rest)) :
    decodeVec dec (bs ++ ext) = some (l, rest ++ ext) := by
  simp only [decodeVec] at h ⊢
  cases hc : decodeCompactU32 bs with
  | none => rw [hc] at h; exact absurd h (by simp)
  | some p =>
    rw [hc] at h
    obtain ⟨n, r⟩ := p
    rw [decodeCompactU32_mono bs r ext n hc]
    exact decodeSeq_mono dec hdec n r l rest ext h

theorem decodeByteSeq_spec (bs l rest : List Byte)
    (h : decodeByteSeq bs = some (l, rest)) : encodeByteSeq l ++ rest = bs := by
  simp only [decodeByteSeq] at h
  cases hc : decodeCompactU32 bs with
  | none => rw [hc] at h; exact absurd h (by simp)
  | some p =>
    rw [hc] at h
    obtain ⟨n, r⟩ := p
    obtain ⟨happ, hlen⟩ := decodeTake_spec n r l rest h
    obtain ⟨hcapp, _⟩ := decodeCompactU32_spec bs n r hc
    simp only [encodeByteSeq, hlen, List.append_assoc]
    rw [happ, hcapp]

theorem decodeByteSeq_mono (bs l rest ext : List Byte)
    (h : decodeByteSeq bs = some (l, rest)) :
    decodeByteSeq (bs ++ ext) = some (l, rest ++ ext) := by
  simp only [decodeByteSeq] at h ⊢
  cases hc : decodeCompactU32 bs with
  | none => rw [hc] at h; exact absurd h (by simp)
  | some p =>
    rw [hc] at h
    obtain ⟨n, r⟩ := p
    rw [decodeCompactU32_mono bs r ext n hc]
    exact decodeTake_mono n r l rest ext h

theorem decodePrecommit_spec (bs : List Byte) (p : Precommit (List Byte)) (rest : List Byte)
    (h : decodePrecommit bs = some (p, rest)) : encodePrecommit p ++ rest = bs := by
  simp only [decodePrecommit] at h
  cases h1 : decodeTake 32 bs with
  | none => simp [h1] at h
  | some q1 =>
    obtain ⟨hh, r1⟩ := q1
    simp only [h1] at h
    cases h2 : decodeU32 r1 with
    | none => simp [h2] at h
    | some q2 =>
      obtain ⟨n, r2⟩ := q2
      simp only [h2] at h
      rw [Option.some.injEq, Prod.mk.injEq] at h
      obtain ⟨hp, hr⟩ := h
      subst hp; subst hr
      obtain ⟨happ1, _⟩ := decodeTake_spec 32 bs hh r1 h1
      obtain ⟨happ2, _⟩ := decodeU32_spec r1 n r2 h2
      simp only [encodePrecommit, List.append_assoc]
      rw [happ2, happ1]

theorem decodePrecommit_mono (bs rest ext : List Byte) (p : Precommit (List Byte))
    (h : decodePrecommit bs = some (p, rest)) :
    decodePrecommit (bs ++ ext) = some (p, rest ++ ext) := by
  simp only [decodePrecommit] at h ⊢
  cases h1 : decodeTake 32 bs with
  | none => simp [h1] at h
  | some q1 =>
    obtain ⟨hh, r1⟩ := q1
    simp only [h1] at h
    simp only [decodeTake_mono 32 bs hh r1 ext h1]
    cases h2 : decodeU32 r1 with
    | none => simp [h2] at h
    | some q2 =>
      obtain ⟨n, r2⟩ := q2
      simp only [h2] at h
      simp only [decodeU32_mono r1 r2 ext n h2]
      rw [Option.some.injEq, Prod.mk.injEq] at h
      obtain ⟨hp, hr⟩ := h
      subst hp; subst hr
      rfl

theorem decodeSignedPrecommit_spec (bs : List Byte)
    (s : SignedPrecommit (List Byte) (List Byte) (List Byte)) (rest : List Byte)
    (h : decodeSignedPrecommit bs = some (s, rest)) :
    encodeSignedPrecommit s ++ rest = bs := by
  simp only [decodeSignedPrecommit] at h
  cases h1 : decodePrecommit bs with
  | none => simp [h1] at h
  | some q1 =>
    obtain ⟨p, r1⟩ := q1
    simp only [h1] at h
    cases h2 : decodeTake 64 r1 with
    | none => simp [h2] at h
    | some q2 =>
      obtain ⟨sg, r2⟩ := q2
      simp only [h2] at h
      cases h3 : decodeTake 32 r2 with
      | none => simp [h3] at h
      | some q3 =>
        obtain ⟨idb, r3⟩ := q3
        simp only [h3] at h
        rw [Option.some.injEq, Prod.mk.injEq] at h
        obtain ⟨hs, hr⟩ := h
        subst hs; subst hr
        have happ1 := decodePrecommit_spec bs p r1 h1
        obtain ⟨happ2, _⟩ := decodeTake_spec 64 r1 sg r2 h2
        obtain ⟨happ3, _⟩ := decodeTake_spec 32 r2 idb r3 h3
        simp only [encodeSignedPrecommit, List.append_assoc]
        rw [happ3, happ2, happ1]

theorem decodeSignedPrecommit_mono (bs rest ext : List Byte)
    (s : SignedPrecommit (List Byte) (List Byte) (List Byte))
    (h : decodeSignedPrecommit bs = some (s, rest)) :
    decodeSignedPrecommit (bs ++ ext) = some (s, rest ++ ext) := by
  simp only [decodeSignedPrecommit] at h ⊢
  cases h1 : decodePrecommit bs with
  | none => simp [h1] at h
  | some q1 =>
    obtain ⟨p, r1⟩ := q1
    simp only [h1] at h
    simp only [decodePrecommit_mono bs r1 ext p h1]
    cases h2 : decodeTake 64 r1 with
    | none => simp [h2] at h
    | some q2 =>
      obtain ⟨sg, r2⟩ := q2
      simp only [h2] at h
      simp only [decodeTake_mono 64 r1 sg r2 ext h2]
      cases h3 : decodeTake 32 r2 with
      | none => simp [h3] at h
      | some q3 =>
        obtain ⟨idb, r3⟩ := q3
        simp only [h3] at h
        simp only [decodeTake_mono 32 r2 idb r3 ext h3]
        rw [Option.some.injEq, Prod.mk.injEq] at h
        obtain ⟨hs, hr⟩ := h
        subst hs; subst hr
        rfl

theorem decodeCommit_spec (bs : List Byte)
    (c : Commit (List Byte) (List Byte) (List Byte)) (rest : List Byte)
    (h : decodeCommit bs = some (c, rest)) : encodeCommit c ++ rest = bs := by
  simp only [decodeCommit] at h
  cases h1 : decodeTake 32 bs with
  | none => simp [h1] at h
  | some q1 =>
    obtain ⟨hh, r1⟩ := q1
    simp only [h1] at h
    cases h2 : decodeU32 r1 with
    | none => simp [h2] at h
    | some q2 =>
      obtain ⟨n, r2⟩ := q2
      simp only [h2] at h
      cases h3 : decodeVec decodeSignedPrecommit r2 with
      | none => simp [h3] at h
      | some q3 =>
        obtain ⟨ps, r3⟩ := q3
        simp only [h3] at h
        rw [Option.some.injEq, Prod.mk.injEq] at h
        obtain ⟨hc, hr⟩ := h
        subst hc; subst hr
        obtain ⟨happ1, _⟩ := decodeTake_spec 32 bs hh r1 h1
        obtain ⟨happ2, _⟩ := decodeU32_spec r1 n r2 h2
        have happ3 := decodeVec_spec decodeSignedPrecommit encodeSignedPrecommit
          (fun b a r hb => decodeSignedPrecommit_spec b a r hb) r2 ps r3 h3
        simp only [encodeCommit, List.append_assoc]
        rw [happ3, happ2, happ1]

theorem decodeCommit_mono (bs rest ext : List Byte)
    (c : Commit (List Byte) (List Byte) (List Byte))
    (h : decodeCommit bs = some (c, rest)) :
    decodeCommit (bs ++ ext) = some (c, rest ++ ext) := by
  simp only [decodeCommit] at h ⊢
  cases h1 : decodeTake 32 bs with
  | none => simp [h1] at h
  | some q1 =>
    obtain ⟨hh, r1⟩ := q1
    simp only [h1] at h
    simp only [decodeTake_mono 32 bs hh r1 ext h1]
    cases h2 : decodeU32 r1 with
    | none => simp [h2] at h
    | some q2 =>
      obtain ⟨n, r2⟩ := q2
      simp only [h2] at h
      simp only [decodeU32_mono r1 r2 ext n h2]
      cases h3 : decodeVec decodeSignedPrecommit r2 with
      | none => simp [h3] at h
      | some q3 =>
        obtain ⟨ps, r3⟩ := q3
        simp only [h3] at h
        simp only [decodeVec_mono decodeSignedPrecommit
          (fun b a r e hb => decodeSignedPrecommit_mono b r e a hb) r2 ps r3 ext h3]
        rw [Option.some.injEq, Prod.mk.injEq] at h
        obtain ⟨hc, hr⟩ := h
        subst hc; subst hr
        rfl

theorem decodeJustification_spec {Header : Type}
    (decH : List Byte → Option (Header × List Byte)) (encH : Header → List Byte)
    (hH : ∀ bs hd rest, decH bs = some (hd, rest) → encH hd ++ rest = bs)
    (bs : List Byte) (j : WireJustification Header) (rest : List Byte)
    (h : decodeJustification decH bs = some (j, rest)) :
    encodeJustification encH j ++ rest = bs := by
  simp only [decodeJustification] at h
  cases h1 : decodeU64 bs with
  | none => simp [h1] at h
  | some q1 =>
    obtain ⟨rd, r1⟩ := q1
    simp only [h1] at h
    cases h2 : decodeCommit r1 with
    | none => simp [h2] at h
    | some q2 =>
      obtain ⟨c, r2⟩ := q2
      simp only [h2] at h
      cases h3 : decodeVec decH r2 with
      | none => simp [h3] at h
      | some q3 =>
        obtain ⟨hs, r3⟩ := q3
        simp only [h3] at h
        rw [Option.some.injEq, Prod.mk.injEq] at h
        obtain ⟨hj, hr⟩ := h
        subst hj; subst hr
        obtain ⟨happ1, _⟩ := decodeU64_spec bs rd r1 h1
        have happ2 := decodeCommit_spec r1 c r2 h2
        have happ3 := decodeVec_spec decH encH hH r2 hs r3 h3
        simp only [encodeJustification, List.append_assoc]
        rw [happ3, happ2, happ1]

theorem decodeJustification_mono {Header : Type}
    (decH : List Byte → Option (Header × List Byte))
    (hH : ∀ bs hd rest ext, decH bs = some (hd, rest) → decH (bs ++ ext) = some (hd, rest ++ ext))
    (bs rest ext : List Byte) (j : WireJustification Header)
    (h : decodeJustification decH bs = some (j, rest)) :
    decodeJustification decH (bs ++ ext) = some (j, rest ++ ext) := by
  simp only [decodeJustification] at h ⊢
  cases h1 : decodeU64 bs with
  | none => simp [h1] at h
  | some q1 =>
    obtain ⟨rd, r1⟩ := q1
    simp only [h1] at h
    simp only [decodeU64_mono bs r1 ext rd h1]
    cases h2 : decodeCommit r1 with
    | none => simp [h2] at h
    | some q2 =>
      obtain ⟨c, r2⟩ := q2
      simp only [h2] at h
      simp only [decodeCommit_mono r1 r2 ext c h2]
      cases h3 : decodeVec decH r2 with
      | none => simp [h3] at h
      | some q3 =>
        obtain ⟨hs, r3⟩ := q3
        simp only [h3] at h
        simp only [decodeVec_mono decH hH r2 hs r3 ext h3]
        rw [Option.some.injEq, Prod.mk.injEq] at h
        obtain ⟨hj, hr⟩ := h
        subst hj; subst hr
        rfl

/--
C4: `verify_delay_passed` succeeds if and only if both clocks have elapsed —
`current_time >= processed_time + delay_period_time` and
`current_height >= processed_height + delay_period_blocks` (lexicographic
Height order) — and when exactly one of the two conditions fails the result
is the corresponding delay-not-elapsed error ("Not enough time elapsed" /
"Not enough blocks elapsed", the spec's `DelayNotElapsed`), assuming the
context has the processed time and height and the time addition does not
overflow u64.
-/
theorem verify_delay_passed_iff (ctx : ReaderCtx) (height : Height) (ce : ConnectionEnd)
    (pt : Nat) (ph : Height)
    (hpt : ctx.client_update_time ce.client_id height = some pt)
    (hph : ctx.client_update_height ce.client_id height = some ph)
    (hov : pt + ce.delay_period < 18446744073709551616) :
    (verify_delay_passed ctx height ce = Except.ok () ↔
      (pt + ce.delay_period ≤ ctx.host_timestamp ∧
        ¬ Height.lt ctx.host_height (ph.add (ctx.block_delay ce.delay_period)))) ∧
    (¬ pt + ce.delay_period ≤ ctx.host_timestamp →
      verify_delay_passed ctx height ce = Except.error CommonError.timeDelayNotElapsed) ∧
    (pt + ce.delay_period ≤ ctx.host_timestamp →
      Height.lt ctx.host_height (ph.add (ctx.block_delay ce.delay_period)) →
      verify_delay_passed ctx height ce = Except.error CommonError.blockDelayNotElapsed) := by
  simp only [verify_delay_passed, hpt, hph]
  rw [if_neg (by omega)]
  by_cases ht : pt + ce.delay_period ≤ ctx.host_timestamp
  · rw [if_neg (show ¬ ¬ (ctx.host_timestamp = pt + ce.delay_period ∨
        pt + ce.delay_period < ctx.host_timestamp) by omega)]
    by_cases hh : Height.lt ctx.host_height (ph.add (ctx.block_delay ce.delay_period))
    · rw [if_pos hh]
      refine ⟨⟨fun h => absurd h (by simp), fun h => absurd hh h.2⟩, ?_, ?_⟩
      · intro h; exact absurd ht h
      · intro _ _; rfl
    · rw [if_neg hh]
      exact ⟨⟨fun _ => ⟨ht, hh⟩, fun _ => rfl⟩, fun h => absurd ht h, fun _ h => absurd h hh⟩
  · rw [if_pos (show ¬ (ctx.host_timestamp = pt + ce.delay_period ∨
        pt + ce.delay_period < ctx.host_timestamp) by omega)]
    refine ⟨⟨fun h => absurd h (by simp), fun h => absurd h.1 ht⟩, fun _ => rfl, ?_⟩
    intro h; exact absurd h ht

/-- Witness for C4 at a concrete context: both clocks elapsed. -/
theorem verify_delay_passed_iff_witness :
    verify_delay_passed ctxW { revision_number := 0, revision_height := 1 } connW =
      Except.ok () := by
  have h := verify_delay_passed_iff ctxW { revision_number := 0, revision_height := 1 } connW
    0 { revision_number := 0, revision_height := 0 } rfl rfl (by decide)
  exact h.1.mpr (by decide)

/--
C2: `verify_membership` succeeds if and only if the root is exactly 32
bytes, the proof bytes decode to the `IbcProof` pair, the direct check of
the child-root proof against the main root yields the expected-mismatch
outcome recovering the child trie root, and the leaf proof proves
`(key, Some(value))` under the recovered child trie root; moreover a short
or long root yields the invalid-root-length error, a literal success of the
direct check yields the unexpected-child-trie-root error, and a failing
leaf proof yields the verification-failed error.
-/
theorem verify_membership_iff (vtp : TrieVerifier) (pfx proof root path value : List Byte) :
    (verify_membership vtp pfx proof root path value = Except.ok () ↔
      (root.length = 32 ∧
        ∃ ibc rest, decodeIbcProof proof = some (ibc, rest) ∧
          ∃ cr,
            vtp root ibc.child_trie_root_proof [(childStorageKeyPfx ++ pfx, some value)] =
              Except.error (TrieVerifyError.rootMismatch cr) ∧
            vtp cr ibc.child_trie_proof [(pfx ++ path, some value)] = Except.ok ())) ∧
    (root.length ≠ 32 →
      verify_membership vtp pfx proof root path value =
        Except.error CommonError.invalidRootLength) ∧
    (∀ ibc rest, root.length = 32 → decodeIbcProof proof = some (ibc, rest) →
      vtp root ibc.child_trie_root_proof [(childStorageKeyPfx ++ pfx, some value)] =
        Except.ok () →
      verify_membership vtp pfx proof root path value =
        Except.error CommonError.unexpectedChildTrieRoot) ∧
    (∀ ibc rest cr e, root.length = 32 → decodeIbcProof proof = some (ibc, rest) →
      vtp root ibc.child_trie_root_proof [(childStorageKeyPfx ++ pfx, some value)] =
        Except.error (TrieVerifyError.rootMismatch cr) →
      vtp cr ibc.child_trie_proof [(pfx ++ path, some value)] = Except.error e →
      verify_membership vtp pfx proof root path value =
        Except.error CommonError.verificationFailed) := by
  refine ⟨?_, ?_, ?_, ?_⟩
  · constructor
    · intro h
      unfold verify_membership at h
      split at h
      · exact absurd h (by simp)
      · next hlen =>
        refine ⟨by omega, ?_⟩
        cases hd : decodeIbcProof proof with
        | none => simp [hd] at h
        | some q =>
          obtain ⟨ibc, rest⟩ := q
          simp only [hd] at h
          refine ⟨ibc, rest, rfl, ?_⟩
          cases hv : vtp root ibc.child_trie_root_proof
              [(childStorageKeyPfx ++ pfx, some value)] with
          | ok u => simp only [hv] at h; exact absurd h (by simp)
          | error te =>
            cases te with
            | rootMismatch cr =>
              simp only [hv] at h
              refine ⟨cr, rfl, ?_⟩
              cases hl : vtp cr ibc.child_trie_proof [(pfx ++ path, some value)] with
              | ok u => rfl
              | error e2 => simp only [hl] at h; exact absurd h (by simp)
            | otherErr => simp only [hv] at h; exact absurd h (by simp)
    · rintro ⟨hlen, ibc, rest, hd, cr, hv, hl⟩
      unfold verify_membership
      rw [if_neg (by omega)]
      simp only [hd, hv, hl]
  · intro hlen
    unfold verify_membership
    rw [if_pos hlen]
  · intro ibc rest hlen hd hv
    unfold verify_membership
    rw [if_neg (by omega)]
    simp only [hd, hv]
  · intro ibc rest cr e hlen hd hv hl
    unfold verify_membership
    rw [if_neg (by omega)]
    simp only [hd, hv, hl]

/-- Witness for C2 at a concrete verifier and inputs: the success path. -/
theorem verify_membership_iff_witness :
    verify_membership vtpMismatch [1] [0, 0] (List.replicate 32 0) [2] [] =
      Except.ok () := by
  have h := verify_membership_iff vtpMismatch [1] [0, 0] (List.replicate 32 0) [2] []
  exact h.1.mpr ⟨by decide,
    ⟨{ child_trie_proof := [], child_trie_root_proof := [] }, [], by decide, [7],
      by decide, by decide⟩⟩

theorem applyItems_single (m : List (List Byte × List Byte)) (k : List Byte)
    (ov : Option (List Byte)) :
    applyItems m [(k, ov)] =
      (m.filter (fun p => decide (p.1 ≠ k))) ++
        (match ov with
         | some v => [(k, v)]
         | none => []) := by
  simp [applyItems]

theorem verify_membership_ok_inv (vtp : TrieVerifier) (pfx proof root path value : List Byte)
    (h : verify_membership vtp pfx proof root path value = Except.ok ()) :
    root.length = 32 ∧
      ∃ ibc rest, decodeIbcProof proof = some (ibc, rest) ∧
        ∃ cr,
          vtp root ibc.child_trie_root_proof [(childStorageKeyPfx ++ pfx, some value)] =
            Except.error (TrieVerifyError.rootMismatch cr) ∧
          vtp cr ibc.child_trie_proof [(pfx ++ path, some value)] = Except.ok () := by
  unfold verify_membership at h
  split at h
  · exact absurd h (by simp)
  · next hlen =>
    refine ⟨by omega, ?_⟩
    cases hd : decodeIbcProof proof with
    | none => simp [hd] at h
    | some q =>
      obtain ⟨ibc, rest⟩ := q
      simp only [hd] at h
      refine ⟨ibc, rest, rfl, ?_⟩
      cases hv : vtp root ibc.child_trie_root_proof
          [(childStorageKeyPfx ++ pfx, some value)] with
      | ok u => simp only [hv] at h; exact absurd h (by simp)
      | error te =>
        cases te with
        | rootMismatch cr =>
          simp only [hv] at h
          refine ⟨cr, rfl, ?_⟩
          cases hl : vtp cr ibc.child_trie_proof [(pfx ++ path, some value)] with
          | ok u => rfl
          | error e2 => simp only [hl] at h; exact absurd h (by simp)
        | otherErr => simp only [hv] at h; exact absurd h (by simp)

theorem verify_non_membership_ok_inv (vtp : TrieVerifier) (pfx proof root path : List Byte)
    (h : verify_non_membership vtp pfx proof root path = Except.ok ()) :
    root.length = 32 ∧
      ∃ ibc rest, decodeIbcProof proof = some (ibc, rest) ∧
        vtp root ibc.child_trie_root_proof [(childStorageKeyPfx ++ pfx, none)] =
          Except.ok () ∧
        vtp root ibc.child_trie_proof [(pfx ++ path, none)] = Except.ok () := by
  unfold verify_non_membership at h
  split at h
  · exact absurd h (by simp)
  · next hlen =>
    refine ⟨by omega, ?_⟩
    cases hd : decodeIbcProof proof with
    | none => simp [hd] at h
    | some q =>
      obtain ⟨ibc, rest⟩ := q
      simp only [hd] at h
      refine ⟨ibc, rest, rfl, ?_⟩
      cases hv1 : vtp root ibc.child_trie_root_proof [(childStorageKeyPfx ++ pfx, none)] with
      | ok u =>
        cases hv2 : vtp root ibc.child_trie_proof [(pfx ++ path, none)] with
        | ok w => exact ⟨rfl, rfl⟩
        | error e2 => simp only [hv1, hv2] at h; exact absurd h (by simp)
      | error e1 => simp only [hv1] at h; exact absurd h (by simp)

theorem idealTrieVerifier_ok_inv (rootOf : List (List Byte × List Byte) → List Byte)
    (decodeNodes : List (List Byte) → Option (List (List Byte × List Byte)))
    (root : List Byte) (proof : List (List Byte))
    (items : List (List Byte × Option (List Byte)))
    (h : idealTrieVerifier rootOf decodeNodes root proof items = Except.ok ()) :
    ∃ m, decodeNodes proof = some m ∧ rootOf (applyItems m items) = root := by
  unfold idealTrieVerifier at h
  cases hm : decodeNodes proof with
  | none => simp [hm] at h
  | some m =>
    simp only [hm] at h
    refine ⟨m, rfl, ?_⟩
    by_cases he : rootOf (applyItems m items) = root
    · exact he
    · rw [if_neg he] at h
      exact absurd h (by simp)

theorem idealTrieVerifier_mismatch_inv (rootOf : List (List Byte × List Byte) → List Byte)
    (decodeNodes : List (List Byte) → Option (List (List Byte × List Byte)))
    (root cr : List Byte) (proof : List (List Byte))
    (items : List (List Byte × Option (List Byte)))
    (h : idealTrieVerifier rootOf decodeNodes root proof items =
      Except.error (TrieVerifyError.rootMismatch cr)) :
    ∃ m, decodeNodes proof = some m ∧ rootOf (applyItems m items) = cr ∧ cr ≠ root := by
  unfold idealTrieVerifier at h
  cases hm : decodeNodes proof with
  | none => simp [hm] at h
  | some m =>
    simp only [hm] at h
    refine ⟨m, rfl, ?_⟩
    by_cases he : rootOf (applyItems m items) = root
    · rw [if_pos he] at h
      exact absurd h (by simp)
    · rw [if_neg he] at h
      rw [Except.error.injEq, TrieVerifyError.rootMismatch.injEq] at h
      subst h
      exact ⟨rfl, he⟩

/--
C3: for a fixed (prefix, root, path, value) and fixed proof bytes,
`verify_membership` and `verify_non_membership` are mutually exclusive under
any collision-free semantics of the external trie verifier
(`idealTrieVerifier` over a root assignment under which equal roots only
arise from descriptions of the same map, i.e. association lists agreeing up
to reordering — the hypothesis `hcf`), provided the leaf key
`prefix ++ path` differs from the child storage key, which every typed IBC
path guarantees.  The hypotheses are jointly satisfiable with the
membership success path: the witness evaluates `verify_membership` to
success at a concrete input under a concrete collision-free root
assignment.
-/
theorem membership_nonmembership_exclusive
    (rootOf : List (List Byte × List Byte) → List Byte)
    (decodeNodes : List (List Byte) → Option (List (List Byte × List Byte)))
    (hcf : ∀ x y : List (List Byte × List Byte), rootOf x = rootOf y → x.Perm y)
    (pfx proof root path value : List Byte)
    (hk : pfx ++ path ≠ childStorageKeyPfx ++ pfx) :
    (verify_membership (idealTrieVerifier rootOf decodeNodes) pfx proof root path value =
        Except.ok () →
      verify_non_membership (idealTrieVerifier rootOf decodeNodes) pfx proof root path ≠
        Except.ok ()) ∧
    (verify_non_membership (idealTrieVerifier rootOf decodeNodes) pfx proof root path =
        Except.ok () →
      verify_membership (idealTrieVerifier rootOf decodeNodes) pfx proof root path value ≠
        Except.ok ()) := by
  have core : ¬ (verify_membership (idealTrieVerifier rootOf decodeNodes) pfx proof root
        path value = Except.ok () ∧
      verify_non_membership (idealTrieVerifier rootOf decodeNodes) pfx proof root path =
        Except.ok ()) := by
    rintro ⟨hmem, hnon⟩
    obtain ⟨hlen, ibc, rest, hd, cr, hv, hl⟩ :=
      verify_membership_ok_inv _ pfx proof root path value hmem
    obtain ⟨hlen2, ibc2, rest2, hd2, hn1, hn2⟩ :=
      verify_non_membership_ok_inv _ pfx proof root path hnon
    rw [hd] at hd2
    rw [Option.some.injEq, Prod.mk.injEq] at hd2
    obtain ⟨hibc, hrest⟩ := hd2
    subst hibc
    obtain ⟨m1, hm1, hcr, hcrne⟩ :=
      idealTrieVerifier_mismatch_inv rootOf decodeNodes root cr
        ibc.child_trie_root_proof [(childStorageKeyPfx ++ pfx, some value)] hv
    obtain ⟨m2, hm2, hleaf⟩ :=
      idealTrieVerifier_ok_inv rootOf decodeNodes cr
        ibc.child_trie_proof [(pfx ++ path, some value)] hl
    obtain ⟨m1b, hm1b, hroot1⟩ :=
      idealTrieVerifier_ok_inv rootOf decodeNodes root
        ibc.child_trie_root_proof [(childStorageKeyPfx ++ pfx, none)] hn1
    obtain ⟨m2b, hm2b, hroot2⟩ :=
      idealTrieVerifier_ok_inv rootOf decodeNodes root
        ibc.child_trie_proof [(pfx ++ path, none)] hn2
    rw [hm1] at hm1b
    rw [hm2] at hm2b
    rw [Option.some.injEq] at hm1b hm2b
    subst hm1b
    subst hm2b
    rw [applyItems_single] at hcr hleaf hroot1 hroot2
    simp only [List.append_nil] at hroot1 hroot2
    have hAB : (List.filter (fun p => decide (p.1 ≠ childStorageKeyPfx ++ pfx)) m1 ++
          [(childStorageKeyPfx ++ pfx, value)]).Perm
        (List.filter (fun p => decide (p.1 ≠ pfx ++ path)) m2 ++ [(pfx ++ path, value)]) :=
      hcf _ _ (by rw [hcr, hleaf])
    have hCD : (List.filter (fun p => decide (p.1 ≠ childStorageKeyPfx ++ pfx)) m1).Perm
        (List.filter (fun p => decide (p.1 ≠ pfx ++ path)) m2) :=
      hcf _ _ (by rw [hroot1, hroot2])
    have htv : (childStorageKeyPfx ++ pfx, value) ∈
        List.filter (fun p => decide (p.1 ≠ childStorageKeyPfx ++ pfx)) m1 ++
          [(childStorageKeyPfx ++ pfx, value)] :=
      List.mem_append_right _ (by simp)
    have htv2 := hAB.mem_iff.mp htv
    rcases List.mem_append.mp htv2 with hD | hsing
    · have hC := hCD.symm.mem_iff.mp hD
      have := List.of_mem_filter hC
      simp at this
    · simp only [List.mem_singleton] at hsing
      rw [Prod.mk.injEq] at hsing
      exact hk hsing.1.symm
  constructor
  · intro hmem hnon
    exact core ⟨hmem, hnon⟩
  · intro hnon hmem
    exact core ⟨hmem, hnon⟩

theorem rootOfW_collision_free :
    ∀ x y : List (List Byte × List Byte), rootOfW x = rootOfW y → x.Perm y := by
  intro x y hxy
  unfold rootOfW at hxy
  by_cases hx : x = scenarioMapA ∨ x = scenarioMapB
  · rw [if_pos hx] at hxy
    by_cases hy : y = scenarioMapA ∨ y = scenarioMapB
    · rcases hx with hx | hx <;> rcases hy with hy | hy <;> subst hx <;> subst hy
      · exact List.Perm.refl _
      · exact List.Perm.swap _ _ _
      · exact List.Perm.swap _ _ _
      · exact List.Perm.refl _
    · rw [if_neg hy] at hxy
      simp only [List.cons.injEq] at hxy
      exact absurd hxy.1 (by decide)
  · rw [if_neg hx] at hxy
    by_cases hy : y = scenarioMapA ∨ y = scenarioMapB
    · rw [if_pos hy] at hxy
      simp only [List.cons.injEq] at hxy
      exact absurd hxy.1 (by decide)
    · rw [if_neg hy] at hxy
      simp only [List.cons.injEq] at hxy
      have hlen := congrArg List.length hxy.2
      simp only [List.length_replicate] at hlen
      rw [Encodable.encode_injective hlen]

/-- Witness for C3 at a concrete collision-free root assignment and inputs:
`verify_membership` concretely evaluates to success — through the
expected-mismatch path recovering the child root [2] — and by the theorem
`verify_non_membership` cannot also succeed on the same inputs. -/
theorem membership_nonmembership_exclusive_witness :
    verify_membership (idealTrieVerifier rootOfW decodeNodesW) [1]
        [4, 4, 20, 4, 4, 10] (List.replicate 32 0) [2] [5] = Except.ok () ∧
      (verify_non_membership (idealTrieVerifier rootOfW decodeNodesW) [1]
        [4, 4, 20, 4, 4, 10] (List.replicate 32 0) [2] = Except.ok ()) = False := by
  have hmem : verify_membership (idealTrieVerifier rootOfW decodeNodesW) [1]
      [4, 4, 20, 4, 4, 10] (List.replicate 32 0) [2] [5] = Except.ok () := by decide
  exact ⟨hmem, eq_false (fun hnon =>
    (membership_nonmembership_exclusive rootOfW decodeNodesW rootOfW_collision_free
      [1] [4, 4, 20, 4, 4, 10] (List.replicate 32 0) [2] [5] (by decide)).1 hmem hnon)⟩

/--
C8: each of `verify_packet_data`, `verify_packet_acknowledgement` and
`verify_next_sequence_recv` first checks the height (violation gives
`Expired` regardless of everything else), then runs `verify_delay_passed`
(whose error propagates), and only then runs `verify_membership` under the
counterparty's commitment prefix with the corresponding packet path;
`verify_packet_receipt_absence` does the same but ends in
`verify_non_membership`.
-/
theorem packet_ops_order (render : IbcPath → List Byte) (vtp : TrieVerifier)
    (cstate : GrandpaClientState) (ctx : ReaderCtx) (height : Height)
    (ce : ConnectionEnd) (proof root port channel : List Byte) (sequence : Nat)
    (value : List Byte) :
    (Height.lt cstate.latest_height height →
      verify_packet_data render vtp cstate ctx height ce proof root port channel
          sequence value = Except.error CommonError.expired ∧
      verify_packet_acknowledgement render vtp cstate ctx height ce proof root port
          channel sequence value = Except.error CommonError.expired ∧
      verify_next_sequence_recv render vtp cstate ctx height ce proof root port
          channel sequence = Except.error CommonError.expired ∧
      verify_packet_receipt_absence render vtp cstate ctx height ce proof root port
          channel sequence = Except.error CommonError.expired) ∧
    (∀ e, ¬ Height.lt cstate.latest_height height →
      verify_delay_passed ctx height ce = Except.error e →
      verify_packet_data render vtp cstate ctx height ce proof root port channel
          sequence value = Except.error e ∧
      verify_packet_acknowledgement render vtp cstate ctx height ce proof root port
          channel sequence value = Except.error e ∧
      verify_next_sequence_recv render vtp cstate ctx height ce proof root port
          channel sequence = Except.error e ∧
      verify_packet_receipt_absence render vtp cstate ctx height ce proof root port
          channel sequence = Except.error e) ∧
    (¬ Height.lt cstate.latest_height height →
      verify_delay_passed ctx height ce = Except.ok () →
      verify_packet_data render vtp cstate ctx height ce proof root port channel
          sequence value =
        verify_membership vtp ce.counterparty_commitment_pfx proof root
          (render (IbcPath.commitments port channel sequence)) value ∧
      verify_packet_acknowledgement render vtp cstate ctx height ce proof root port
          channel sequence value =
        verify_membership vtp ce.counterparty_commitment_pfx proof root
          (render (IbcPath.acks port channel sequence)) value ∧
      verify_next_sequence_recv render vtp cstate ctx height ce proof root port
          channel sequence =
        verify_membership vtp ce.counterparty_commitment_pfx proof root
          (render (IbcPath.seqRecvs port channel)) (encodeU64 sequence) ∧
      verify_packet_receipt_absence render vtp cstate ctx height ce proof root port
          channel sequence =
        verify_non_membership vtp ce.counterparty_commitment_pfx proof root
          (render (IbcPath.receipts port channel sequence))) := by
  refine ⟨?_, ?_, ?_⟩
  · intro hlt
    refine ⟨?_, ?_, ?_, ?_⟩ <;>
      simp [verify_packet_data, verify_packet_acknowledgement,
        verify_next_sequence_recv, verify_packet_receipt_absence,
        ClientState.verify_height, if_pos hlt]
  · intro e hlt hdelay
    refine ⟨?_, ?_, ?_, ?_⟩ <;>
      simp [verify_packet_data, verify_packet_acknowledgement,
        verify_next_sequence_recv, verify_packet_receipt_absence,
        ClientState.verify_height, if_neg hlt, hdelay]
  · intro hlt hdelay
    refine ⟨?_, ?_, ?_, ?_⟩ <;>
      simp [verify_packet_data, verify_packet_acknowledgement,
        verify_next_sequence_recv, verify_packet_receipt_absence,
        ClientState.verify_height, if_neg hlt, hdelay]

/-- Witness for C8 at concrete inputs: height and delay checks pass, and the
packet-data verification is the membership check under the counterparty's
prefix. -/
theorem packet_ops_order_witness :
    verify_packet_data renderW vtpMismatch cstateW ctxW
        { revision_number := 0, revision_height := 1 } connW [0, 0]
        (List.replicate 32 0) [3] [4] 7 [] =
      verify_membership vtpMismatch connW.counterparty_commitment_pfx [0, 0]
        (List.replicate 32 0) (renderW (IbcPath.commitments [3] [4] 7)) [] :=
  ((packet_ops_order renderW vtpMismatch cstateW ctxW
      { revision_number := 0, revision_height := 1 } connW [0, 0]
      (List.replicate 32 0) [3] [4] 7 []).2.2 (by decide) (by decide)).1

/--
C5: `decode_and_verify_finalizes` fails with the decode error on malformed
bytes; when the decoded commit's (target_hash, target_number) differs from
the expected target it fails with the target-mismatch error for every
choice of chain parameters — in particular for every signature-check
function, so no signature work can influence or precede this failure; and
on success the returned justification's `target()` is exactly the expected
(number, hash).
-/
theorem decode_and_verify_finalizes_spec {Header : Type} [DecidableEq Header]
    (decH : List Byte → Option (Header × List Byte)) :
    (∀ (cs : ChainSpec (List Byte) Header (List Byte) (List Byte)) (fuel : Nat)
        (bytes : List Byte) (target : List Byte × Nat) (set_id : Nat),
      decodeJustification decH bytes = none →
      decodeAndVerifyFinalizes decH cs fuel bytes target set_id =
        DecodeVerifyOutcome.err JustError.decodeError) ∧
    (∀ (cs : ChainSpec (List Byte) Header (List Byte) (List Byte)) (fuel : Nat)
        (bytes : List Byte) (target : List Byte × Nat) (set_id : Nat)
        (j : WireJustification Header) (rest : List Byte),
      decodeJustification decH bytes = some (j, rest) →
      (j.commit.target_hash, j.commit.target_number) ≠ target →
      decodeAndVerifyFinalizes decH cs fuel bytes target set_id =
        DecodeVerifyOutcome.err JustError.targetMismatch) ∧
    (∀ (cs : ChainSpec (List Byte) Header (List Byte) (List Byte)) (fuel : Nat)
        (bytes : List Byte) (target : List Byte × Nat) (set_id : Nat)
        (j2 : WireJustification Header),
      decodeAndVerifyFinalizes decH cs fuel bytes target set_id =
        DecodeVerifyOutcome.ok j2 →
      j2.target = (target.2, target.1)) := by
  refine ⟨?_, ?_, ?_⟩
  · intro cs fuel bytes target set_id hdec
    simp [decodeAndVerifyFinalizes, hdec]
  · intro cs fuel bytes target set_id j rest hdec hne
    simp [decodeAndVerifyFinalizes, hdec, if_pos hne]
  · intro cs fuel bytes target set_id j2 h
    unfold decodeAndVerifyFinalizes at h
    cases hdec : decodeJustification decH bytes with
    | none => simp [hdec] at h
    | some q =>
      obtain ⟨j, rest⟩ := q
      simp only [hdec] at h
      split at h
      · exact absurd h (by simp)
      · next hne =>
        rw [not_not] at hne
        rw [Prod.mk.injEq] at hne
        obtain ⟨hh, hn⟩ := hne
        cases hv : verifyWithVoterSet cs fuel set_id j with
        | ok =>
          simp only [hv] at h
          rw [DecodeVerifyOutcome.ok.injEq] at h
          subst h
          simp [GrandpaJustification.target, hh, hn]
        | err e => simp only [hv] at h; exact absurd h (by simp)
        | fatal => simp only [hv] at h; exact absurd h (by simp)
        | diverged => simp only [hv] at h; exact absurd h (by simp)

/-- Witness for C5: malformed (empty) input yields the decode error. -/
theorem decode_and_verify_finalizes_spec_witness :
    decodeAndVerifyFinalizes decodeHeaderByte wireChainSpecTrivial 1 []
        (List.replicate 32 0, 0) 0 =
      DecodeVerifyOutcome.err JustError.decodeError :=
  (decode_and_verify_finalizes_spec decodeHeaderByte).1 wireChainSpecTrivial 1 []
    (List.replicate 32 0, 0) 0 (by decide)

theorem minFold_spec {Hash AuthId Sig : Type} :
    ∀ (rest : List (SignedPrecommit Hash AuthId Sig)) (acc : Precommit Hash),
      (rest.foldl
          (fun a y => if y.precommit.target_number < a.target_number then y.precommit else a)
          acc = acc ∧
        ∀ t ∈ rest, acc.target_number ≤ t.precommit.target_number) ∨
      (∃ l1 u l2, rest = l1 ++ u :: l2 ∧
        rest.foldl
          (fun a y => if y.precommit.target_number < a.target_number then y.precommit else a)
          acc = u.precommit ∧
        u.precommit.target_number < acc.target_number ∧
        (∀ t ∈ l1, u.precommit.target_number < t.precommit.target_number) ∧
        (∀ t ∈ l2, u.precommit.target_number ≤ t.precommit.target_number)) := by
  intro rest
  induction rest with
  | nil =>
    intro acc
    left
    exact ⟨rfl, by simp⟩
  | cons y rest ih =>
    intro acc
    simp only [List.foldl_cons]
    by_cases hy : y.precommit.target_number < acc.target_number
    · rw [if_pos hy]
      rcases ih y.precommit with ⟨heq, hall⟩ | ⟨l1, u, l2, hsplit, heq, hlt, hl1, hl2⟩
      · right
        exact ⟨[], y, rest, by simp, heq, hy, by simp, hall⟩
      · right
        refine ⟨y :: l1, u, l2, by simp [hsplit], heq, by omega, ?_, hl2⟩
        intro t ht
        rcases List.mem_cons.mp ht with h | h
        · subst h; omega
        · exact hl1 t h
    · rw [if_neg hy]
      rcases ih acc with ⟨heq, hall⟩ | ⟨l1, u, l2, hsplit, heq, hlt, hl1, hl2⟩
      · left
        refine ⟨heq, ?_⟩
        intro t ht
        rcases List.mem_cons.mp ht with h | h
        · subst h; omega
        · exact hall t h
      · right
        refine ⟨y :: l1, u, l2, by simp [hsplit], heq, hlt, ?_, hl2⟩
        intro t ht
        rcases List.mem_cons.mp ht with h | h
        · subst h; omega
        · exact hl1 t h

/--
C9: the base of `verify_with_voter_set` is the precommit with the
numerically lowest target_number, ties broken by the first such precommit
in list order (the result splits the list as l1 ++ s :: l2 with every
element of l1 strictly larger); for every non-empty precommit list the base
computation succeeds; and when the precommit list is empty yet the oracle
accepts the commit, `verify_with_voter_set` hits the `expect` panic — the
`fatal` outcome — rather than returning an error.
-/
theorem base_precommit_spec :
    (∀ {Hash AuthId Sig : Type} (l : List (SignedPrecommit Hash AuthId Sig)), l ≠ [] →
      ∃ (l1 : List (SignedPrecommit Hash AuthId Sig)) (s : SignedPrecommit Hash AuthId Sig)
        (l2 : List (SignedPrecommit Hash AuthId Sig)),
        l = l1 ++ s :: l2 ∧ minNumPrecommit l = some s.precommit ∧
        (∀ t ∈ l, s.precommit.target_number ≤ t.precommit.target_number) ∧
        (∀ t ∈ l1, s.precommit.target_number < t.precommit.target_number)) ∧
    (∀ {Hash Header AuthId Sig : Type} [DecidableEq Hash]
        (cs : ChainSpec Hash Header AuthId Sig) (fuel set_id : Nat)
        (j : GrandpaJustification Hash Header AuthId Sig),
      j.commit.precommits = [] →
      cs.oracle j.commit (chainOf cs j.votes_ancestries) = true →
      verifyWithVoterSet cs fuel set_id j = VerifyOutcome.fatal) := by
  constructor
  · intro Hash AuthId Sig l hne
    match l with
    | [] => exact absurd rfl hne
    | s :: rest =>
      rcases minFold_spec rest s.precommit with ⟨heq, hall⟩ |
          ⟨l1, u, l2, hsplit, heq, hlt, hl1, hl2⟩
      · refine ⟨[], s, rest, by simp, by simp [minNumPrecommit, heq], ?_, by simp⟩
        intro t ht
        rcases List.mem_cons.mp ht with h | h
        · subst h; omega
        · exact hall t h
      · refine ⟨s :: l1, u, l2, by simp [hsplit], by simp [minNumPrecommit, heq], ?_, ?_⟩
        · intro t ht
          rcases List.mem_cons.mp ht with h | h
          · subst h; omega
          · rw [hsplit] at h
            rcases List.mem_append.mp h with h2 | h2
            · have := hl1 t h2; omega
            · rcases List.mem_cons.mp h2 with h3 | h3
              · subst h3; omega
              · exact hl2 t h3
        · intro t ht
          rcases List.mem_cons.mp ht with h | h
          · subst h; omega
          · exact hl1 t h
  · intro Hash Header AuthId Sig inst cs fuel set_id j hempty horacle
    simp [verifyWithVoterSet, hempty, horacle, minNumPrecommit]

/-- Witness for C9 at a concrete precommit list: two precommits tied at the
minimum, the first being picked as base. -/
theorem base_precommit_spec_witness :
    ∃ (l1 : List (SignedPrecommit Nat Nat Nat)) (s : SignedPrecommit Nat Nat Nat)
      (l2 : List (SignedPrecommit Nat Nat Nat)),
      ([{ precommit := { target_hash := 9, target_number := 3 }, signature := 0, id := 0 },
        { precommit := { target_hash := 8, target_number := 3 }, signature := 0, id := 1 }] :
          List (SignedPrecommit Nat Nat Nat)) = l1 ++ s :: l2 ∧
      minNumPrecommit
        [{ precommit := { target_hash := 9, target_number := 3 }, signature := 0, id := 0 },
         { precommit := { target_hash := 8, target_number := 3 }, signature := 0, id := 1 }] =
        some s.precommit ∧
      (∀ t ∈ ([{ precommit := { target_hash := 9, target_number := 3 }, signature := 0, id := 0 },
          { precommit := { target_hash := 8, target_number := 3 }, signature := 0, id := 1 }] :
            List (SignedPrecommit Nat Nat Nat)),
        s.precommit.target_number ≤ t.precommit.target_number) ∧
      (∀ t ∈ l1, s.precommit.target_number < t.precommit.target_number) :=
  base_precommit_spec.1
    [{ precommit := { target_hash := 9, target_number := 3 }, signature := 0, id := 0 },
     { precommit := { target_hash := 8, target_number := 3 }, signature := 0, id := 1 }]
    (by decide)

theorem foldl_insert_eq_union {Hash : Type} [DecidableEq Hash] :
    ∀ (route : List Hash) (s : Finset Hash),
      route.foldl (fun v h => insert h v) s = s ∪ route.toFinset := by
  intro route
  induction route with
  | nil => intro s; simp
  | cons a t ih =>
    intro s
    simp only [List.foldl_cons, ih, List.toFinset_cons]
    ext x
    simp only [Finset.mem_union, Finset.mem_insert]
    tauto

theorem checkPrecommits_ok_inv {Hash Header AuthId Sig : Type} [DecidableEq Hash]
    (cs : ChainSpec Hash Header AuthId Sig) (m : List (Hash × Header))
    (round set_id : Nat) (base : Hash) (fuel : Nat) :
    ∀ (l : List (SignedPrecommit Hash AuthId Sig)) (acc w : Finset Hash),
      checkPrecommits cs m round set_id base fuel l acc = some (Except.ok w) →
      ∃ v, visitedOf cs m base fuel l = some v ∧ w = acc ∪ v := by
  intro l
  induction l with
  | nil =>
    intro acc w h
    simp only [checkPrecommits] at h
    rw [Option.some.injEq, Except.ok.injEq] at h
    subst h
    exact ⟨∅, rfl, by simp⟩
  | cons s rest ih =>
    intro acc w h
    simp only [checkPrecommits] at h
    split at h
    · exact absurd h (by simp)
    · next hsig =>
      split at h
      · next hbase =>
        obtain ⟨v, hv, hw⟩ := ih acc w h
        exact ⟨v, by simp only [visitedOf, if_pos hbase]; exact hv, hw⟩
      · next hbase =>
        cases ha : ancestry cs m base fuel s.precommit.target_hash with
        | none => rw [ha] at h; exact absurd h (by simp)
        | some o =>
          cases o with
          | none => rw [ha] at h; exact absurd h (by simp)
          | some route =>
            rw [ha] at h
            obtain ⟨v, hv, hw⟩ := ih _ w h
            refine ⟨insert s.precommit.target_hash route.toFinset ∪ v, ?_, ?_⟩
            · simp only [visitedOf, if_neg hbase, ha, hv, Option.map_some']
            · rw [hw, foldl_insert_eq_union]
              ext x
              simp only [Finset.mem_union, Finset.mem_insert]
              tauto

theorem checkPrecommits_ok_of {Hash Header AuthId Sig : Type} [DecidableEq Hash]
    (cs : ChainSpec Hash Header AuthId Sig) (m : List (Hash × Header))
    (round set_id : Nat) (base : Hash) (fuel : Nat) :
    ∀ (l : List (SignedPrecommit Hash AuthId Sig)) (acc v : Finset Hash),
      (∀ s ∈ l, cs.checkSig round set_id s.precommit s.id s.signature = true) →
      visitedOf cs m base fuel l = some v →
      checkPrecommits cs m round set_id base fuel l acc = some (Except.ok (acc ∪ v)) := by
  intro l
  induction l with
  | nil =>
    intro acc v _ hv
    simp only [visitedOf, Option.some.injEq] at hv
    subst hv
    simp [checkPrecommits]
  | cons s rest ih =>
    intro acc v hsig hv
    have hs := hsig s (by simp)
    simp only [checkPrecommits, hs]
    rw [if_neg (by simp)]
    simp only [visitedOf] at hv
    split at hv
    · next hbase =>
      rw [if_pos hbase]
      exact ih acc v (fun t ht => hsig t (by simp [ht])) hv
    · next hbase =>
      rw [if_neg hbase]
      cases ha : ancestry cs m base fuel s.precommit.target_hash with
      | none => simp [ha] at hv
      | some o =>
        cases o with
        | none => simp [ha] at hv
        | some route =>
          simp only [ha] at hv ⊢
          cases hrest : visitedOf cs m base fuel rest with
          | none => simp [hrest] at hv
          | some vr =>
            simp only [hrest, Option.map_some', Option.some.injEq] at hv
            subst hv
            rw [ih _ vr (fun t ht => hsig t (by simp [ht])) hrest]
            rw [Option.some.injEq, Except.ok.injEq]
            rw [foldl_insert_eq_union]
            ext x
            simp only [Finset.mem_union, Finset.mem_insert]
            tauto

/--
C1 (amended): for every justification accepted by `verify_with_voter_set`
the hash set of `votes_ancestries` equals exactly the set of hashes visited
while routing every precommit target back to the base; and whenever the
oracle accepts, every signature checks out and every ancestry walk
succeeds, an inexact hash set — in particular one inflated by an unrelated
extra header — is rejected with the unused-headers error
(`UnusedOrMissingAncestryHeaders`).  A justification omitting a needed
ancestor header fails earlier, in the ancestry walk, with the
broken-ancestry-proof error instead (see the counterexample).
-/
theorem ancestry_completeness :
    (∀ {Hash Header AuthId Sig : Type} [DecidableEq Hash]
        (cs : ChainSpec Hash Header AuthId Sig) (fuel set_id : Nat)
        (j : GrandpaJustification Hash Header AuthId Sig),
      verifyWithVoterSet cs fuel set_id j = VerifyOutcome.ok →
      ∃ (bp : Precommit Hash) (V : Finset Hash),
        minNumPrecommit j.commit.precommits = some bp ∧
        visitedOf cs (chainOf cs j.votes_ancestries) bp.target_hash fuel
          j.commit.precommits = some V ∧
        (j.votes_ancestries.map cs.hashOf).toFinset = V) ∧
    (∀ {Hash Header AuthId Sig : Type} [DecidableEq Hash]
        (cs : ChainSpec Hash Header AuthId Sig) (fuel set_id : Nat)
        (j : GrandpaJustification Hash Header AuthId Sig)
        (bp : Precommit Hash) (V : Finset Hash),
      cs.oracle j.commit (chainOf cs j.votes_ancestries) = true →
      minNumPrecommit j.commit.precommits = some bp →
      (∀ s ∈ j.commit.precommits,
        cs.checkSig j.round set_id s.precommit s.id s.signature = true) →
      visitedOf cs (chainOf cs j.votes_ancestries) bp.target_hash fuel
        j.commit.precommits = some V →
      V ≠ (j.votes_ancestries.map cs.hashOf).toFinset →
      verifyWithVoterSet cs fuel set_id j = VerifyOutcome.err JustError.unusedHeaders) := by
  constructor
  · intro Hash Header AuthId Sig inst cs fuel set_id j h
    simp only [verifyWithVoterSet] at h
    by_cases horacle : cs.oracle j.commit (chainOf cs j.votes_ancestries) = false
    · rw [if_pos horacle] at h
      exact absurd h (by simp)
    · rw [if_neg horacle] at h
      cases hmin : minNumPrecommit j.commit.precommits with
      | none => simp only [hmin] at h; exact absurd h (by simp)
      | some bp =>
        simp only [hmin] at h
        cases hcheck : checkPrecommits cs (chainOf cs j.votes_ancestries) j.round set_id
            bp.target_hash fuel j.commit.precommits ∅ with
        | none => simp only [hcheck] at h; exact absurd h (by simp)
        | some res =>
          cases res with
          | error e => simp only [hcheck] at h; exact absurd h (by simp)
          | ok visited =>
            simp only [hcheck] at h
            obtain ⟨v, hv, hw⟩ := checkPrecommits_ok_inv cs
              (chainOf cs j.votes_ancestries) j.round set_id bp.target_hash fuel
              j.commit.precommits ∅ visited hcheck
            refine ⟨bp, v, rfl, hv, ?_⟩
            split at h
            · next heq =>
              rw [← heq, hw]
              simp
            · exact absurd h (by simp)
  · intro Hash Header AuthId Sig inst cs fuel set_id j bp V horacle hmin hsig hv hne
    simp only [verifyWithVoterSet]
    rw [if_neg (by simp [horacle])]
    simp only [hmin]
    simp only [checkPrecommits_ok_of cs (chainOf cs j.votes_ancestries) j.round set_id
      bp.target_hash fuel j.commit.precommits ∅ V hsig hv]
    rw [if_neg (by simpa using hne)]

/--
Counterexample to C1 as stated: a justification whose `votes_ancestries`
omits the needed ancestor header of hash 2 (the walk from precommit target
3 to base 1 needs it) is rejected, but with the broken-ancestry-proof
error, not the unused-headers (`UnusedOrMissingAncestryHeaders`) error.
-/
theorem ancestry_completeness_counterexample :
    verifyWithVoterSet simpleChainSpec 10 0
      { round := 0
        commit :=
          { target_hash := 3, target_number := 3
            precommits :=
              [{ precommit := { target_hash := 1, target_number := 1 },
                 signature := 0, id := 0 },
               { precommit := { target_hash := 3, target_number := 3 },
                 signature := 0, id := 1 }] }
        votes_ancestries := [{ hh := 3, ph := 2 }] } =
      VerifyOutcome.err JustError.brokenAncestry ∧
    JustError.brokenAncestry ≠ JustError.unusedHeaders := by
  constructor
  · decide
  · decide

/-- Witness for C1: a justification with one extra unrelated ancestry
header (hash 9) while all precommits target the base is rejected with the
unused-headers error. -/
theorem ancestry_completeness_witness :
    verifyWithVoterSet simpleChainSpec 10 0
      { round := 0
        commit :=
          { target_hash := 1, target_number := 1
            precommits :=
              [{ precommit := { target_hash := 1, target_number := 1 },
                 signature := 0, id := 0 }] }
        votes_ancestries := [{ hh := 9, ph := 8 }] } =
      VerifyOutcome.err JustError.unusedHeaders :=
  ancestry_completeness.2 simpleChainSpec 10 0
    { round := 0
      commit :=
        { target_hash := 1, target_number := 1
          precommits :=
            [{ precommit := { target_hash := 1, target_number := 1 },
               signature := 0, id := 0 }] }
      votes_ancestries := [{ hh := 9, ph := 8 }] }
    { target_hash := 1, target_number := 1 } ∅
    (by decide) (by decide) (by decide) (by decide) (by decide)

theorem checkPrecommits_badsig {Hash Header AuthId Sig : Type} [DecidableEq Hash]
    (cs : ChainSpec Hash Header AuthId Sig) (m : List (Hash × Header))
    (round set_id : Nat) (base : Hash) (fuel : Nat) :
    ∀ (good : List (SignedPrecommit Hash AuthId Sig))
      (bad : SignedPrecommit Hash AuthId Sig)
      (rest : List (SignedPrecommit Hash AuthId Sig)) (acc : Finset Hash),
      (∀ s ∈ good, cs.checkSig round set_id s.precommit s.id s.signature = true ∧
        (base = s.precommit.target_hash ∨
          ∃ route, ancestry cs m base fuel s.precommit.target_hash = some (some route))) →
      cs.checkSig round set_id bad.precommit bad.id bad.signature = false →
      checkPrecommits cs m round set_id base fuel (good ++ bad :: rest) acc =
        some (Except.error JustError.badSignature) := by
  intro good
  induction good with
  | nil =>
    intro bad rest acc _ hbad
    simp [checkPrecommits, hbad]
  | cons s good ih =>
    intro bad rest acc hgood hbad
    obtain ⟨hs, hwalk⟩ := hgood s (by simp)
    have hgood2 : ∀ t ∈ good, cs.checkSig round set_id t.precommit t.id t.signature = true ∧
        (base = t.precommit.target_hash ∨
          ∃ route, ancestry cs m base fuel t.precommit.target_hash = some (some route)) :=
      fun t ht => hgood t (by simp [ht])
    simp only [List.cons_append, checkPrecommits]
    rw [if_neg (by simp [hs])]
    by_cases hbase : base = s.precommit.target_hash
    · rw [if_pos hbase]
      exact ih bad rest acc hgood2 hbad
    · rw [if_neg hbase]
      rcases hwalk with hwalk | ⟨route, hroute⟩
      · exact absurd hwalk hbase
      · simp only [hroute]
        exact ih bad rest _ hgood2 hbad

/--
C6 (amended): a justification whose precommit list splits as
good ++ bad :: rest — every precommit in `good` passing its signature check
and either targeting the base or having a working ancestry walk, and `bad`
failing its signature check (as any single altered signature byte causes) —
is rejected by `verify_with_voter_set` with the BadSignature error; that
error is the fixed message "invalid signature for precommit in grandpa
justification" and carries no identification of the offending voter (see
the counterexample).
-/
theorem bad_signature_spec {Hash Header AuthId Sig : Type} [DecidableEq Hash]
    (cs : ChainSpec Hash Header AuthId Sig) (fuel set_id : Nat)
    (j : GrandpaJustification Hash Header AuthId Sig)
    (good : List (SignedPrecommit Hash AuthId Sig))
    (bad : SignedPrecommit Hash AuthId Sig)
    (rest : List (SignedPrecommit Hash AuthId Sig)) (bp : Precommit Hash)
    (hsplit : j.commit.precommits = good ++ bad :: rest)
    (horacle : cs.oracle j.commit (chainOf cs j.votes_ancestries) = true)
    (hmin : minNumPrecommit j.commit.precommits = some bp)
    (hgood : ∀ s ∈ good,
      cs.checkSig j.round set_id s.precommit s.id s.signature = true ∧
      (bp.target_hash = s.precommit.target_hash ∨
        ∃ route, ancestry cs (chainOf cs j.votes_ancestries) bp.target_hash fuel
          s.precommit.target_hash = some (some route)))
    (hbad : cs.checkSig j.round set_id bad.precommit bad.id bad.signature = false) :
    verifyWithVoterSet cs fuel set_id j = VerifyOutcome.err JustError.badSignature := by
  simp only [verifyWithVoterSet]
  rw [if_neg (by simp [horacle])]
  simp only [hmin]
  rw [hsplit]
  rw [checkPrecommits_badsig cs (chainOf cs j.votes_ancestries) j.round set_id
    bp.target_hash fuel good bad rest ∅ hgood hbad]

/--
Counterexample to C6 as stated: two justifications whose only difference is
the identity of the voter with the altered (failing) signature — voter 1
versus voter 2 — produce the very same BadSignature error value, so the
error does not name the offending voter.
-/
theorem bad_signature_counterexample :
    verifyWithVoterSet sigValueChainSpec 10 0
        { round := 0
          commit :=
            { target_hash := 1, target_number := 1
              precommits :=
                [{ precommit := { target_hash := 1, target_number := 1 },
                   signature := 0, id := 1 }] }
          votes_ancestries := [] } =
      verifyWithVoterSet sigValueChainSpec 10 0
        { round := 0
          commit :=
            { target_hash := 1, target_number := 1
              precommits :=
                [{ precommit := { target_hash := 1, target_number := 1 },
                   signature := 0, id := 2 }] }
          votes_ancestries := [] } ∧
    verifyWithVoterSet sigValueChainSpec 10 0
        { round := 0
          commit :=
            { target_hash := 1, target_number := 1
              precommits :=
                [{ precommit := { target_hash := 1, target_number := 1 },
                   signature := 0, id := 1 }] }
          votes_ancestries := [] } =
      VerifyOutcome.err JustError.badSignature ∧
    (1 : Nat) ≠ 2 := by
  refine ⟨by decide, by decide, by decide⟩

/-- Witness for C6 at a concrete justification: one precommit with a
failing signature. -/
theorem bad_signature_spec_witness :
    verifyWithVoterSet sigValueChainSpec 10 0
        { round := 0
          commit :=
            { target_hash := 1, target_number := 1
              precommits :=
                [{ precommit := { target_hash := 1, target_number := 1 },
                   signature := 0, id := 5 }] }
          votes_ancestries := [] } =
      VerifyOutcome.err JustError.badSignature :=
  bad_signature_spec sigValueChainSpec 10 0
    { round := 0
      commit :=
        { target_hash := 1, target_number := 1
          precommits :=
            [{ precommit := { target_hash := 1, target_number := 1 },
               signature := 0, id := 5 }] }
      votes_ancestries := [] }
    [] { precommit := { target_hash := 1, target_number := 1 }, signature := 0, id := 5 }
    [] { target_hash := 1, target_number := 1 }
    (by decide) (by decide) (by decide) (by simp) (by decide)

/--
C10 (amended): the ancestry walk terminates whenever the supplied headers
admit a rank strictly decreasing from child to parent — as the block
numbers of real headers do — reaching base or an absent hash within
rank(block) + 1 steps; but termination is not unconditional: when the
supplied headers' parent links form a cycle the source's loop runs forever
(see the counterexample).
-/
theorem ancestry_terminates_of_rank {Hash Header AuthId Sig : Type} [DecidableEq Hash]
    (cs : ChainSpec Hash Header AuthId Sig) (m : List (Hash × Header)) (base : Hash)
    (num : Hash → Nat)
    (hrank : ∀ k hdr, chainLookup m k = some hdr → num (cs.parentOf hdr) < num k) :
    ∀ (fuel : Nat) (block : Hash) (route : List Hash), num block < fuel →
      ancestryLoop cs m base fuel block route ≠ none := by
  intro fuel
  induction fuel with
  | zero => intro block route hlt; omega
  | succ fuel ih =>
    intro block route hlt
    simp only [ancestryLoop]
    by_cases hb : block = base
    · rw [if_pos hb]
      simp
    · rw [if_neg hb]
      cases hl : chainLookup m block with
      | none => simp
      | some hdr =>
        have := hrank block hdr hl
        exact ih (cs.parentOf hdr) (route ++ [cs.parentOf hdr]) (by omega)

/--
Counterexample to C10 as stated: with two supplied headers whose parent
links form a cycle (hash 0 has parent 1, hash 1 has parent 0) and a base
not on the cycle, the walk starting at 0 never finishes — for every amount
of fuel the loop is still running — so the source's unbounded loop runs
forever instead of returning NotDescendent or reaching the base.
-/
theorem ancestry_nontermination_counterexample :
    (∃ (fuel : Nat) (r : Option (List Nat)),
      ancestry simpleChainSpec
        (chainOf simpleChainSpec [{ hh := 0, ph := 1 }, { hh := 1, ph := 0 }]) 5 fuel 0 =
        some r) = False := by
  have aux : ∀ (fuel : Nat) (cur : Nat) (route : List Nat), cur = 0 ∨ cur = 1 →
      ancestryLoop simpleChainSpec
        (chainOf simpleChainSpec [{ hh := 0, ph := 1 }, { hh := 1, ph := 0 }]) 5 fuel cur
        route = none := by
    intro fuel
    induction fuel with
    | zero => intro cur route _; rfl
    | succ fuel ih =>
      intro cur route hcur
      rcases hcur with h | h
      · subst h
        simp only [ancestryLoop]
        rw [if_neg (by decide)]
        have hlk : chainLookup
            (chainOf simpleChainSpec [{ hh := 0, ph := 1 }, { hh := 1, ph := 0 }]) 0 =
            some { hh := 0, ph := 1 } := by decide
        simp only [hlk]
        exact ih _ _ (Or.inr rfl)
      · subst h
        simp only [ancestryLoop]
        rw [if_neg (by decide)]
        have hlk : chainLookup
            (chainOf simpleChainSpec [{ hh := 0, ph := 1 }, { hh := 1, ph := 0 }]) 1 =
            some { hh := 1, ph := 0 } := by decide
        simp only [hlk]
        exact ih _ _ (Or.inl rfl)
  apply eq_false
  rintro ⟨fuel, r, hr⟩
  rw [ancestry, aux fuel 0 [] (Or.inl rfl)] at hr
  exact Option.noConfusion hr

theorem chainW_rank : ∀ (k : Nat) (hdr : SimpleHeader),
    chainLookup (chainOf simpleChainSpec
      [{ hh := 2, ph := 1 }, { hh := 1, ph := 0 }]) k = some hdr →
    simpleChainSpec.parentOf hdr < k := by
  intro k hdr h
  unfold chainLookup at h
  cases hf : List.find? (fun p => decide (p.1 = k))
      ((chainOf simpleChainSpec [{ hh := 2, ph := 1 }, { hh := 1, ph := 0 }]).reverse) with
  | none => rw [hf] at h; exact absurd h (by simp)
  | some q =>
    rw [hf] at h
    rw [Option.map_some', Option.some.injEq] at h
    subst h
    have hpred := List.find?_some hf
    have hmem := List.mem_of_find?_eq_some hf
    rw [decide_eq_true_iff] at hpred
    subst hpred
    simp [chainOf, simpleChainSpec] at hmem
    rcases hmem with hq | hq <;> subst hq <;> decide

/-- Witness for C10: on an acyclic two-header chain, fuel rank(block)+1
suffices for the walk to finish. -/
theorem ancestry_terminates_of_rank_witness :
    ancestryLoop simpleChainSpec
      (chainOf simpleChainSpec [{ hh := 2, ph := 1 }, { hh := 1, ph := 0 }]) 0 3 2 [] ≠
      none :=
  ancestry_terminates_of_rank simpleChainSpec
    (chainOf simpleChainSpec [{ hh := 2, ph := 1 }, { hh := 1, ph := 0 }]) 0
    (fun k => k) chainW_rank 3 2 [] (by decide)

/--
C7 (amended): for any byte string from which a justification is validly
decoded with unconsumed remainder `rest`, re-encoding reproduces exactly
the consumed prefix — encode(decode(bytes)) ++ rest = bytes, so
encode(decode(bytes)) = bytes precisely when nothing trails — and every
strict prefix of the consumed part fails to decode (truncated input is
rejected); but input with trailing bytes is accepted, the trailing bytes
being left unconsumed (see the counterexample).
-/
theorem justification_codec_roundtrip {Header : Type}
    (decH : List Byte → Option (Header × List Byte)) (encH : Header → List Byte)
    (hH : ∀ bs hd rest, decH bs = some (hd, rest) → encH hd ++ rest = bs)
    (hHm : ∀ bs hd rest ext, decH bs = some (hd, rest) →
      decH (bs ++ ext) = some (hd, rest ++ ext))
    (bs : List Byte) (j : WireJustification Header) (rest : List Byte)
    (h : decodeJustification decH bs = some (j, rest)) :
    encodeJustification encH j ++ rest = bs ∧
      ∀ k, k < bs.length - rest.length →
        decodeJustification decH (bs.take k) = none := by
  have henc := decodeJustification_spec decH encH hH bs j rest h
  refine ⟨henc, ?_⟩
  have hrest_le : rest.length ≤ bs.length := by
    rw [← henc]
    simp
  intro k hk
  cases hdec : decodeJustification decH (bs.take k) with
  | none => rfl
  | some q =>
    obtain ⟨j2, r2⟩ := q
    have hmono := decodeJustification_mono decH hHm (bs.take k) r2 (bs.drop k) j2 hdec
    rw [List.take_append_drop] at hmono
    rw [h, Option.some.injEq, Prod.mk.injEq] at hmono
    obtain ⟨_, hr⟩ := hmono
    have hlen : rest.length = r2.length + (bs.length - k) := by
      rw [hr]
      simp only [List.length_append, List.length_drop]
    omega

/--
Counterexample to C7 as stated: the decoder accepts input with a trailing
byte — a valid 46-byte encoding followed by the extra byte 7 decodes
successfully, leaving the 7 unconsumed — and for that input
encode(decode(bytes)) differs from bytes.
-/
theorem justification_codec_counterexample :
    decodeJustification decodeHeaderByte (List.replicate 46 0 ++ [7]) =
      some (wireJustificationZero, [7]) ∧
    encodeJustification encodeHeaderByte wireJustificationZero ≠
      List.replicate 46 0 ++ [7] := by
  refine ⟨by decide, by decide⟩

/-- Witness for C7: the 46-byte zero encoding decodes with empty remainder,
re-encodes to itself, and every strict prefix of it is rejected. -/
theorem justification_codec_roundtrip_witness :
    encodeJustification encodeHeaderByte wireJustificationZero ++ [] =
        List.replicate 46 0 ∧
      ∀ k, k < (List.replicate 46 (0 : Byte)).length - ([] : List Byte).length →
        decodeJustification decodeHeaderByte ((List.replicate 46 (0 : Byte)).take k) =
          none :=
  justification_codec_roundtrip decodeHeaderByte encodeHeaderByte
    (fun bs hd rest h => (decodeTake_spec 1 bs hd rest h).1)
    (fun bs hd rest ext h => decodeTake_mono 1 bs hd rest ext h)
    (List.replicate 46 0) wireJustificationZero [] (by decide)
